import Mathlib

set_option maxRecDepth 100000

/-!
Verification development for the annotator repository.

The definitions below are a shallow embedding of the Rust sources:
  * src/git/diff.rs       — `Hunk`, `DiffLine`, `FileDiff` and their helpers
  * src/git/adjust.rs     — `adjust_annotation`, `adjust_annotations`,
                            `apply_adjustments`
  * src/git/rename.rs     — `apply_renames`
  * src/core/undo.rs      — `UndoAction`, `UndoStack`
  * src/core/store.rs     — the JSONL store (`load_jsonl`, `append_jsonl`,
                            `atomic_write_jsonl`)
  * src/core/annotation.rs — the `Annotation` record and `AdjustResult`

Machine integers: Rust `u32` values are modelled as `Nat`; the lossy cast
`x as u32` applied to an `i64` is modelled by `asU32`, an explicit reduction
modulo 2^32.  Rust `i64` is modelled as `Int` (all quantities involved stay
far below 2^63, where the Rust arithmetic is exact).  Timestamps
(`chrono::DateTime<Utc>`) are modelled as an opaque `Nat` supplied as an
explicit `now` parameter wherever the code calls `Utc::now()`.
-/

/-- Rust `x as u32` for `x : i64`: truncation to the low 32 bits. -/
def asU32 (x : Int) : Nat := (x % (4294967296 : Int)).toNat

/-- src/git/diff.rs `DiffLineType`. -/
inductive DiffLineType where
  | Context
  | Addition
  | Deletion
deriving DecidableEq, Repr

/-- src/git/diff.rs `DiffLine`.  `old_lineno`/`new_lineno` are `Option<u32>`. -/
structure DiffLine where
  origin : DiffLineType
  old_lineno : Option Nat
  new_lineno : Option Nat
  content : String
deriving DecidableEq, Repr

/-- src/git/diff.rs `Hunk`. -/
structure Hunk where
  old_start : Nat
  old_lines : Nat
  new_start : Nat
  new_lines : Nat
  lines : List DiffLine
deriving DecidableEq, Repr

/-- src/git/diff.rs `Hunk::old_end`. -/
def Hunk.old_end (h : Hunk) : Nat :=
  if h.old_lines = 0 then h.old_start else h.old_start + h.old_lines - 1

/-- src/git/diff.rs `Hunk::net_offset` (`new_lines as i64 - old_lines as i64`). -/
def Hunk.net_offset (h : Hunk) : Int := (h.new_lines : Int) - (h.old_lines : Int)

/-- src/git/diff.rs `Hunk::deleted_old_lines`. -/
def Hunk.deleted_old_lines (h : Hunk) : List Nat :=
  (h.lines.filter (fun l => l.origin = DiffLineType.Deletion)).filterMap (fun l => l.old_lineno)

/-- src/git/diff.rs `FileDiffStatus`. -/
inductive FileDiffStatus where
  | Added
  | Deleted
  | Modified
  | Renamed
deriving DecidableEq, Repr

/-- src/git/diff.rs `FileDiff`. -/
structure FileDiff where
  old_path : Option String
  new_path : Option String
  hunks : List Hunk
  status : FileDiffStatus
deriving DecidableEq, Repr

/-- src/core/annotation.rs `Annotation`.  The opaque 128-bit `Uuid` id and the
two UTC timestamps are modelled as `Nat`. -/
structure Annotation where
  id : Nat
  file_path : String
  start_line : Nat
  end_line : Nat
  text : String
  created_at : Nat
  updated_at : Nat
deriving DecidableEq, Repr

/-- src/core/annotation.rs `AdjustResult`. -/
inductive AdjustResult where
  | Shifted (old_start old_end new_start new_end : Nat)
  | Conflict (deleted_lines : List Nat)
  | Deleted
  | Unchanged
deriving DecidableEq, Repr

/-- The in-range test the code performs on deleted lines
(`deleted_line >= start && deleted_line <= end`). -/
def inRange (s e l : Nat) : Bool := decide (s ≤ l) && decide (l ≤ e)

/-- src/git/adjust.rs lines 114-134: the `pre_offset` accumulated over one
overlapping hunk's lines.  A deletion strictly before `start` contributes -1;
an addition whose effective old position (`new_lineno - offset - pre_offset`,
cast to `u32`) is strictly before `start` contributes +1.  (The `range_offset`
computed at lines 137-161 of the source is dead code — it only feeds the
unused `_post_offset` binding — and is therefore not modelled.) -/
def hunkPreOffset (start : Nat) (offset : Int) (lines : List DiffLine) : Int :=
  lines.foldl
    (fun pre l =>
      match l.origin with
      | DiffLineType.Deletion =>
        match l.old_lineno with
        | some old => if old < start then pre - 1 else pre
        | none => pre
      | DiffLineType.Addition =>
        match l.new_lineno with
        | some new => if asU32 ((new : Int) - offset - pre) < start then pre + 1 else pre
        | none => pre
      | DiffLineType.Context => pre)
    0

/-- src/git/adjust.rs lines 96-163: the hunk walk of `adjust_annotation`.
Returns the final running `offset` and the accumulated `deleted_in_range`
list.  The walk `break`s at the first hunk entirely after the range. -/
def adjustWalk (start endL : Nat) : List Hunk → Int → List Nat → Int × List Nat
  | [], offset, dels => (offset, dels)
  | h :: rest, offset, dels =>
    if h.old_end < start then
      adjustWalk start endL rest (offset + h.net_offset) dels
    else if endL < h.old_start then
      (offset, dels)
    else
      adjustWalk start endL rest (offset + hunkPreOffset start offset h.lines)
        (dels ++ h.deleted_old_lines.filter (fun l => inRange start endL l))

/-- The final `offset` of the walk for an annotation/diff pair. -/
def adjustOffset (a : Annotation) (d : FileDiff) : Int :=
  (adjustWalk a.start_line a.end_line d.hunks 0 []).1

/-- The final `deleted_in_range` of the walk for an annotation/diff pair. -/
def adjustDels (a : Annotation) (d : FileDiff) : List Nat :=
  (adjustWalk a.start_line a.end_line d.hunks 0 []).2

/-- src/git/adjust.rs lines 84-188 `adjust_annotation`.  (The code tests
`!deleted_in_range.is_empty()` before falling through to the shift logic;
here the branch order is the equivalent `dels = []` split.) -/
def adjust_annotation (a : Annotation) (d : FileDiff) : AdjustResult :=
  match d.status with
  | FileDiffStatus.Deleted => AdjustResult.Deleted
  | FileDiffStatus.Added => AdjustResult.Unchanged
  | _ =>
    let offset := adjustOffset a d
    let dels := adjustDels a d
    let total_lines := a.end_line - a.start_line + 1
    if dels.length = total_lines then AdjustResult.Deleted
    else if dels = [] then
      let new_start := asU32 ((a.start_line : Int) + offset)
      let new_end := asU32 ((a.end_line : Int) + offset)
      if new_start = a.start_line ∧ new_end = a.end_line then AdjustResult.Unchanged
      else AdjustResult.Shifted a.start_line a.end_line new_start new_end
    else AdjustResult.Conflict dels

/-- src/git/adjust.rs lines 190-212 `adjust_annotations`: pair every
annotation with the result against the first diff whose `old_path` or
`new_path` equals its `file_path`, or `Unchanged` when none matches. -/
def adjust_annotations (anns : List Annotation) (diffs : List FileDiff) :
    List ( Annotation × AdjustResult) :=
  anns.map (fun a =>
    match diffs.find? (fun d =>
        d.old_path == some a.file_path || d.new_path == some a.file_path) with
    | some d => (a, adjust_annotation a d)
    | none => (a, AdjustResult.Unchanged))

/-- src/git/adjust.rs lines 218-222: update the first annotation whose id
matches, setting the new range and bumping `updated_at`. -/
def setFirstById (i ns ne now : Nat) : List Annotation → List Annotation
  | [] => []
  | a :: rest =>
    if a.id = i then
      { a with start_line := ns, end_line := ne, updated_at := now } :: rest
    else a :: setFirstById i ns ne now rest

/-- One step of src/git/adjust.rs lines 215-232. -/
def applyOne (now : Nat) (anns : List Annotation) (pr : Annotation × AdjustResult) :
    List Annotation :=
  match pr.2 with
  | AdjustResult.Shifted _ _ ns ne => setFirstById pr.1.id ns ne now anns
  | AdjustResult.Deleted => anns.filter (fun a => a.id != pr.1.id)
  | AdjustResult.Conflict _ => anns
  | AdjustResult.Unchanged => anns

/-- src/git/adjust.rs lines 214-233 `apply_adjustments`, with `Utc::now()`
passed in as `now`. -/
def apply_adjustments (now : Nat) (anns : List Annotation)
    (results : List ( Annotation × AdjustResult)) : List Annotation :=
  results.foldl (applyOne now) anns

/-- The `(old, new)` pair of a `Renamed` diff carrying both paths
(src/git/rename.rs line 10-11 guard). -/
def renPair (d : FileDiff) : Option (String × String) :=
  match d.status, d.old_path, d.new_path with
  | FileDiffStatus.Renamed, some o, some n => some (o, n)
  | _, _, _ => none

/-- src/git/rename.rs lines 12-17: rewrite every annotation whose path equals
`o` to `n`, bumping `updated_at`. -/
def applyRenameStep (now : Nat) (o n : String) (anns : List Annotation) :
    List Annotation :=
  anns.map (fun a =>
    if a.file_path = o then { a with file_path := n, updated_at := now } else a)

/-- One iteration of the src/git/rename.rs lines 9-20 loop: a `Renamed` diff
with both paths rewrites annotation paths and records the pair in the
report (unconditionally); every other diff is skipped. -/
def renameStep (now : Nat) (acc : List Annotation × List (String × String))
    (d : FileDiff) : List Annotation × List (String × String) :=
  match renPair d with
  | some (o, n) => (applyRenameStep now o n acc.1, acc.2 ++ [(o, n)])
  | none => acc

/-- src/git/rename.rs lines 6-23 `apply_renames`.  Returns (annotations,
report). -/
def apply_renames (now : Nat) (anns : List Annotation) (diffs : List FileDiff) :
    List Annotation × List (String × String) :=
  diffs.foldl (renameStep now) (anns, [])

/-- src/core/undo.rs `UndoAction`. -/
inductive UndoAction where
  | Create (a : Annotation)
  | Delete (a : Annotation)
  | Update (old new : Annotation)
deriving DecidableEq, Repr

/-- src/core/undo.rs lines 13-24 `UndoAction::invert`. -/
def UndoAction.invert : UndoAction → UndoAction
  | UndoAction.Create a => UndoAction.Delete a
  | UndoAction.Delete a => UndoAction.Create a
  | UndoAction.Update o n => UndoAction.Update n o

/-- src/core/undo.rs `UndoStack`.  The top of each Rust `Vec` stack is the
head of the corresponding list. -/
structure UndoStack where
  undo : List UndoAction
  redo : List UndoAction
deriving DecidableEq, Repr

/-- src/core/undo.rs lines 33-36 `push`: append to undo, clear redo. -/
def UndoStack.push (s : UndoStack) (a : UndoAction) : UndoStack :=
  { undo := a :: s.undo, redo := [] }

/-- src/core/undo.rs lines 38-43 `undo`: pop, push the original onto redo,
return the inverted action (or `none` on an empty stack, leaving `s`). -/
def UndoStack.undoOp (s : UndoStack) : Option UndoAction × UndoStack :=
  match s.undo with
  | [] => (none, s)
  | a :: rest => (some a.invert, { undo := rest, redo := a :: s.redo })

/-- src/core/undo.rs lines 45-50 `redo`: pop from redo, push the original
onto undo, return the inverted action. -/
def UndoStack.redoOp (s : UndoStack) : Option UndoAction × UndoStack :=
  match s.redo with
  | [] => (none, s)
  | a :: rest => (some a.invert, { undo := a :: s.undo, redo := rest })

/-! Concrete inputs used by witnesses and counterexamples. -/

/-- A deletion diff line at old line `n`. -/
def delLine (n : Nat) : DiffLine := ⟨DiffLineType.Deletion, some n, none, "deleted"⟩

/-- An addition diff line at new line `n`. -/
def addLine (n : Nat) : DiffLine := ⟨DiffLineType.Addition, none, some n, "added"⟩

/-- A context diff line. -/
def ctxLine (o n : Nat) : DiffLine := ⟨DiffLineType.Context, some o, some n, "ctx"⟩

/-- A small test annotation on `test.rs` (mirrors the repo's test helper). -/
def mkAnn (s e : Nat) : Annotation :=
  ⟨0, "test.rs", s, e, "note", 0, 0⟩

/-- A `Modified` diff on `test.rs` with the given hunks. -/
def mkDiff (hs : List Hunk) : FileDiff :=
  ⟨some "test.rs", some "test.rs", hs, FileDiffStatus.Modified⟩

/-! ## Store model (src/core/store.rs)

The store keeps one JSON record per line in `annotations.jsonl`.  File
contents are modelled as `List Char`; a missing file as `none`.
`serde_json` is an external crate, so its behaviour on the `Annotation`
record is modelled concretely: `encodeAnn` renders the record as the
compact single-line JSON object serde_json produces (fields in declaration
order; `id`, timestamps — uuid/ISO-8601 strings in the real format — are
rendered as decimal string tokens, an injective stand-in that preserves the
framing properties the store relies on), and `parseAnn` accepts exactly
that shape, rejecting trailing garbage as `serde_json::from_str` does. -/

/-- Decimal digit character. -/
def digitChar (n : Nat) : Char := Char.ofNat (48 + n)

/-- Lowercase hex digit character (0-15). -/
def hexDigitChar (n : Nat) : Char :=
  if n < 10 then Char.ofNat (48 + n) else Char.ofNat (87 + n)

/-- Value of a lowercase hex digit character. -/
def hexVal (c : Char) : Option Nat :=
  if '0' ≤ c ∧ c ≤ '9' then some (c.toNat - 48)
  else if 'a' ≤ c ∧ c ≤ 'f' then some (c.toNat - 87)
  else none

/-- JSON string escaping of one character: quote and backslash get a
backslash escape, control characters a `\u00XX` escape, everything else is
emitted verbatim. -/
def escChar (c : Char) : List Char :=
  if c = '"' then ['\\', '"']
  else if c = '\\' then ['\\', '\\']
  else if c.toNat < 32 then
    ['\\', 'u', '0', '0', hexDigitChar (c.toNat / 16), hexDigitChar (c.toNat % 16)]
  else [c]

/-- JSON string escaping of a character list. -/
def escString (s : List Char) : List Char := (s.map escChar).flatten

/-- Parse a JSON string body up to and including the closing quote,
returning the decoded content and the remaining input. -/
def parseJString : List Char → Option (List Char × List Char)
  | [] => none
  | c :: rest =>
    if c = '"' then some ([], rest)
    else if c = '\\' then
      match rest with
      | [] => none
      | e :: rest2 =>
        if e = '"' then (parseJString rest2).map (fun p => ('"' :: p.1, p.2))
        else if e = '\\' then (parseJString rest2).map (fun p => ('\\' :: p.1, p.2))
        else if e = 'u' then
          match rest2 with
          | h1 :: h2 :: h3 :: h4 :: rest3 =>
            match hexVal h1, hexVal h2, hexVal h3, hexVal h4 with
            | some a, some b, some c2, some d =>
              (parseJString rest3).map
                (fun p => (Char.ofNat (((a * 16 + b) * 16 + c2) * 16 + d) :: p.1, p.2))
            | _, _, _, _ => none
          | _ => none
        else none
    else if c.toNat < 32 then none
    else (parseJString rest).map (fun p => (c :: p.1, p.2))

/-- Is this character a decimal digit? -/
def isDigitChar (c : Char) : Bool := decide ('0' ≤ c) && decide (c ≤ '9')

/-- Longest digit run at the head of the input, and the rest. -/
def takeDigits : List Char → List Char × List Char
  | [] => ([], [])
  | c :: rest =>
    if isDigitChar c then
      ((c :: (takeDigits rest).1), (takeDigits rest).2)
    else ([], c :: rest)

/-- Value of a digit run (most significant first). -/
def digitsToNat (ds : List Char) : Nat :=
  ds.foldl (fun acc c => acc * 10 + (c.toNat - 48)) 0

/-- Does the input start with a decimal digit? -/
def headIsDigit : List Char → Bool
  | [] => false
  | c :: _ => isDigitChar c

/-- Parse a decimal natural number token. -/
def parseNatTok (l : List Char) : Option (Nat × List Char) :=
  if (takeDigits l).1 = [] then none
  else some (digitsToNat (takeDigits l).1, (takeDigits l).2)

/-- Decimal rendering, fuelled (the fuel `n + 1` always suffices). -/
def natToDigitsAux : Nat → Nat → List Char → List Char
  | 0, _, acc => acc
  | fuel + 1, n, acc =>
    if n < 10 then digitChar (n % 10) :: acc
    else natToDigitsAux fuel (n / 10) (digitChar (n % 10) :: acc)

/-- Decimal rendering of a natural number. -/
def natToString (n : Nat) : List Char := natToDigitsAux (n + 1) n []

/-- Literal fragments of the JSON record, in parse order. -/
def litA : List Char := ("\x7b\"id\":\"").toList

/-- Fragment between the id value and the file_path value. -/
def litB : List Char := ("\",\"file_path\":\"").toList

/-- Fragment between the file_path value and the start_line value. -/
def litC : List Char := (",\"start_line\":").toList

/-- Fragment between the start_line value and the end_line value. -/
def litD : List Char := (",\"end_line\":").toList

/-- Fragment between the end_line value and the text value. -/
def litE : List Char := (",\"text\":\"").toList

/-- Fragment between the text value and the created_at value. -/
def litF : List Char := (",\"created_at\":\"").toList

/-- Fragment between the created_at value and the updated_at value. -/
def litG : List Char := ("\",\"updated_at\":\"").toList

/-- Closing fragment of the record. -/
def litH : List Char := ("\"\x7d").toList

/-- One annotation record as a single JSON line (model of
`serde_json::to_string`). -/
def encodeAnn (a : Annotation) : List Char :=
  litA ++ natToString a.id ++ litB ++ escString a.file_path.data ++
    ('"' :: litC) ++ natToString a.start_line ++ litD ++ natToString a.end_line ++
    litE ++ escString a.text.data ++ ('"' :: litF) ++ natToString a.created_at ++
    litG ++ natToString a.updated_at ++ litH

/-- Strip an expected literal from the head of the input. -/
def stripLit : List Char → List Char → Option (List Char)
  | [], l => some l
  | _ :: _, [] => none
  | p :: ps, c :: cs => if c = p then stripLit ps cs else none

/-- Parse one expected literal fragment, then a decimal token. -/
def parseNatField (lit l : List Char) : Option (Nat × List Char) :=
  match stripLit lit l with
  | some l2 => parseNatTok l2
  | none => none

/-- Parse one expected literal fragment, then a JSON string value. -/
def parseStrField (lit l : List Char) : Option (List Char × List Char) :=
  match stripLit lit l with
  | some l2 => parseJString l2
  | none => none

/-- Parse the closing fragment; trailing input fails the parse, as
`serde_json::from_str` rejects trailing characters. -/
def parseAnnEnd (l : List Char) : Option Unit :=
  match stripLit litH l with
  | some [] => some ()
  | _ => none

/-- Parse one annotation record (model of `serde_json::from_str` for the
records the store writes). -/
def parseAnn (l : List Char) : Option Annotation :=
  (parseNatField litA l).bind fun p1 =>
  (parseStrField litB p1.2).bind fun p2 =>
  (parseNatField litC p2.2).bind fun p3 =>
  (parseNatField litD p3.2).bind fun p4 =>
  (parseStrField litE p4.2).bind fun p5 =>
  (parseNatField litF p5.2).bind fun p6 =>
  (parseNatField litG p6.2).bind fun p7 =>
  (parseAnnEnd p7.2).bind fun _ =>
  some ⟨p1.1, String.mk p2.1, p3.1, p4.1, String.mk p5.1, p6.1, p7.1⟩

/-- ASCII whitespace predicate (model of `char::is_whitespace` on the
characters that can occur around a JSONL record). -/
def isWsChar (c : Char) : Bool :=
  c = ' ' || c = '\t' || c = '\n' || c = '\r' || c = '\x0b' || c = '\x0c'

/-- Model of Rust `str::trim`. -/
def trimChars (l : List Char) : List Char :=
  ((l.dropWhile isWsChar).reverse.dropWhile isWsChar).reverse

/-- Split on `'\n'`; always returns at least one (possibly empty) segment. -/
def splitNl : List Char → List (List Char)
  | [] => [[]]
  | c :: rest =>
    if c = '\n' then [] :: splitNl rest
    else (splitNl rest).modifyHead (fun l => c :: l)

/-- Model of Rust `str::lines` before `\r`-stripping: drop the final empty
segment produced by a trailing newline (or by an empty input). -/
def rustLinesRaw (s : List Char) : List (List Char) :=
  if (splitNl s).getLast? = some [] then (splitNl s).dropLast else splitNl s

/-- Strip one trailing `'\r'` from a line, as `str::lines` does. -/
def stripCr (l : List Char) : List Char :=
  if l.getLast? = some '\r' then l.dropLast else l

/-- Model of Rust `str::lines`. -/
def rustLines (s : List Char) : List (List Char) := (rustLinesRaw s).map stripCr

/-- The error of src/core/store.rs line 111: file name and 1-based line. -/
structure LoadError where
  path : String
  line : Nat
deriving DecidableEq, Repr

/-- src/core/store.rs lines 105-113: the line loop of `load_jsonl`.  `i` is
the 0-based index of the first line of `ls` in the file. -/
def loadLines (p : String) : List (List Char) → Nat → Except LoadError (List Annotation)
  | [], _ => Except.ok []
  | l :: rest, i =>
    if trimChars l = [] then loadLines p rest (i + 1)
    else
      match parseAnn (trimChars l) with
      | some a =>
        match loadLines p rest (i + 1) with
        | Except.ok items => Except.ok (a :: items)
        | Except.error e => Except.error e
      | none => Except.error ⟨p, i + 1⟩

/-- src/core/store.rs lines 98-115 `load_jsonl`: a missing file loads as the
empty list; otherwise every line is processed in order. -/
def load_jsonl (p : String) (file : Option (List Char)) :
    Except LoadError (List Annotation) :=
  match file with
  | none => Except.ok []
  | some content => loadLines p (rustLines content) 0

/-- The annotations file name (src/core/store.rs line 14). -/
def annotationsFile : String := "annotations.jsonl"

/-- src/core/store.rs lines 28-30 `Store::load_annotations`. -/
def load_annotations (file : Option (List Char)) : Except LoadError (List Annotation) :=
  load_jsonl annotationsFile file

/-- src/core/store.rs lines 128-141 `atomic_write_jsonl` (the content the
rewrite commits): one record plus newline per item. -/
def save_annotations (anns : List Annotation) : List Char :=
  (anns.map (fun a => encodeAnn a ++ ['\n'])).flatten

/-- src/core/store.rs lines 117-126 `append_jsonl`: append one record plus
newline to the existing content (a missing file is created empty). -/
def append_annotation (file : Option (List Char)) (a : Annotation) : List Char :=
  file.getD [] ++ encodeAnn a ++ ['\n']

/-! ## Well-formedness predicates used in amended claims. -/

/-- Hunks sorted by `old_start` and non-overlapping: each hunk's old range
ends strictly before the next begins. -/
def hunksSortedDisjoint : List Hunk → Prop
  | [] => True
  | [_] => True
  | h1 :: h2 :: t => h1.old_end < h2.old_start ∧ hunksSortedDisjoint (h2 :: t)

/-- Strictly ascending list of naturals (consecutive comparison). -/
def natsStrictAsc : List Nat → Prop
  | [] => True
  | [_] => True
  | x :: y :: t => x < y ∧ natsStrictAsc (y :: t)

/-- Every deletion line's old number lies inside its hunk's old range. -/
def hunkDelsInBounds (h : Hunk) : Prop :=
  ∀ l ∈ h.deleted_old_lines, h.old_start ≤ l ∧ l ≤ h.old_end

/-- A hunk's deletion lines carry strictly increasing old numbers. -/
def hunkDelsStrictMono (h : Hunk) : Prop := natsStrictAsc h.deleted_old_lines

/-- All old line numbers deleted inside `[s, e]` anywhere in the diff, in
file order (the quantity claim C1 classifies by). -/
def delsInRange (s e : Nat) (hs : List Hunk) : List Nat :=
  (hs.map (fun h => h.deleted_old_lines.filter (fun l => inRange s e l))).flatten

/-- Rename-chain freedom (hypothesis of the amended claim C3): no `Renamed`
diff's new path equals a `Renamed` diff's old path (both with distinct
present paths). -/
def renClash (d d' : FileDiff) : Bool :=
  match renPair d, renPair d' with
  | some (o, n), some (o', n') =>
    decide (o ≠ n) && decide (o' ≠ n') && decide (n' = o)
  | _, _ => false

/-- Kernel-reducible decidability of `hunksSortedDisjoint`. -/
instance hunksSortedDisjointDec : (hs : List Hunk) → Decidable (hunksSortedDisjoint hs)
  | [] => isTrue trivial
  | [_] => isTrue trivial
  | h1 :: h2 :: t =>
    haveI := hunksSortedDisjointDec (h2 :: t)
    inferInstanceAs (Decidable (h1.old_end < h2.old_start ∧ hunksSortedDisjoint (h2 :: t)))

/-- Kernel-reducible decidability of `natsStrictAsc`. -/
instance natsStrictAscDec : (l : List Nat) → Decidable (natsStrictAsc l)
  | [] => isTrue trivial
  | [_] => isTrue trivial
  | x :: y :: t =>
    haveI := natsStrictAscDec (y :: t)
    inferInstanceAs (Decidable (x < y ∧ natsStrictAsc (y :: t)))

/-- Decidability of `hunkDelsInBounds` for concrete witnesses. -/
instance (h : Hunk) : Decidable (hunkDelsInBounds h) :=
  inferInstanceAs (Decidable (∀ l ∈ h.deleted_old_lines, h.old_start ≤ l ∧ l ≤ h.old_end))

/-- Decidability of `hunkDelsStrictMono` for concrete witnesses. -/
instance (h : Hunk) : Decidable (hunkDelsStrictMono h) :=
  natsStrictAscDec h.deleted_old_lines

/-! ## Theorems -/

/-- C2 (code bug): the spec demands `new_start`/`new_end` ≥ 1, with `Deleted`
returned whenever `start + offset` would be 0 or negative, but
src/git/adjust.rs lines 175-187 perform no such clamp: with a net pre-start
offset of -2 against an annotation anchored at line 2, the code returns
`Shifted` with `new_start = new_end = 0` instead of `Deleted`. -/
theorem C2_no_clamp_to_deleted :
    adjust_annotation (mkAnn 2 2) (mkDiff [⟨1, 2, 1, 0, [delLine 1, delLine 1]⟩]) =
      AdjustResult.Shifted 2 2 0 0 := by decide

/-- C6: a diff with status `Deleted` always yields `Deleted`; a diff with
status `Added` always yields `Unchanged`; and in `adjust_annotations` an
annotation whose path matches no diff's old or new path gets `Unchanged`. -/
theorem C6_trivial_cases :
    (∀ (a : Annotation) (d : FileDiff), d.status = FileDiffStatus.Deleted →
      adjust_annotation a d = AdjustResult.Deleted) ∧
    (∀ (a : Annotation) (d : FileDiff), d.status = FileDiffStatus.Added →
      adjust_annotation a d = AdjustResult.Unchanged) ∧
    (∀ (anns : List Annotation) (diffs : List FileDiff),
      ∀ a ∈ anns,
        (∀ d ∈ diffs, d.old_path ≠ some a.file_path ∧ d.new_path ≠ some a.file_path) →
        (a, AdjustResult.Unchanged) ∈ adjust_annotations anns diffs) := by
  refine ⟨fun a d h => by simp [ adjust_annotation, h],
          fun a d h => by simp [ adjust_annotation, h], ?_⟩
  intro anns diffs a ha hnone
  have hfind : diffs.find? (fun d =>
      d.old_path == some a.file_path || d.new_path == some a.file_path) = none := by
    rw [List.find?_eq_none]
    intro d hd
    have h2 := hnone d hd
    simp [h2.1, h2.2]
  unfold adjust_annotations
  exact List.mem_map.mpr ⟨a, ha, by simp [hfind]⟩

/-- C6 witness: the three conclusions at concrete inputs. -/
theorem C6_trivial_cases_witness :
    adjust_annotation (mkAnn 5 10) ⟨some "test.rs", none, [], FileDiffStatus.Deleted⟩ =
      AdjustResult.Deleted ∧
    adjust_annotation (mkAnn 1 5) ⟨none, some "test.rs", [], FileDiffStatus.Added⟩ =
      AdjustResult.Unchanged ∧
    (mkAnn 1 1, AdjustResult.Unchanged) ∈
      adjust_annotations [mkAnn 1 1]
        [⟨some "other.rs", some "other.rs", [], FileDiffStatus.Modified⟩] :=
  ⟨C6_trivial_cases.1 _ _ rfl, C6_trivial_cases.2.1 _ _ rfl,
   C6_trivial_cases.2.2 _ _ _ (by decide) (by decide)⟩

/-- C9: undo-then-redo (and redo-then-undo) on a non-empty stack restores
both stacks exactly; push puts the action on top of undo and empties redo;
undo/redo on an empty respective stack return no action and leave the
state unchanged. -/
theorem C9_undo_redo_laws :
    (∀ (s : UndoStack) (a : UndoAction) (rest : List UndoAction),
      s.undo = a :: rest → ((s.undoOp.2).redoOp.2 = s)) ∧
    (∀ (s : UndoStack) (a : UndoAction) (rest : List UndoAction),
      s.redo = a :: rest → ((s.redoOp.2).undoOp.2 = s)) ∧
    (∀ (s : UndoStack) (a : UndoAction),
      (s.push a).undo = a :: s.undo ∧ (s.push a).redo = []) ∧
    (∀ s : UndoStack, s.undo = [] → s.undoOp = (none, s)) ∧
    (∀ s : UndoStack, s.redo = [] → s.redoOp = (none, s)) := by
  refine ⟨?_, ?_, ?_, ?_, ?_⟩
  · rintro ⟨u, r⟩ a rest h
    simp only at h
    subst h
    simp [UndoStack.undoOp, UndoStack.redoOp]
  · rintro ⟨u, r⟩ a rest h
    simp only at h
    subst h
    simp [UndoStack.undoOp, UndoStack.redoOp]
  · intro s a
    exact ⟨rfl, rfl⟩
  · rintro ⟨u, r⟩ h
    simp only at h
    subst h
    rfl
  · rintro ⟨u, r⟩ h
    simp only at h
    subst h
    rfl

/-- C9 witness: undo-then-redo at a concrete one-element stack. -/
theorem C9_undo_redo_laws_witness :
    ((UndoStack.mk [UndoAction.Create (mkAnn 1 1)] []).undoOp.2).redoOp.2 =
      UndoStack.mk [UndoAction.Create (mkAnn 1 1)] [] :=
  C9_undo_redo_laws.1 _ _ _ rfl

/-- C10: after push(a) and undo(), redo() returns `invert a` — the same
inverted action undo() returned, not the original — while moving `a` back
onto the undo stack; in general redo() returns the inverse of the action
popped from the redo stack. -/
theorem C10_redo_inverts :
    (∀ (s : UndoStack) (a : UndoAction),
      (s.push a).undoOp.1 = some a.invert ∧
      ((s.push a).undoOp.2).redoOp = (some a.invert, ⟨a :: s.undo, []⟩)) ∧
    (∀ (s : UndoStack) (a : UndoAction) (rest : List UndoAction),
      s.redo = a :: rest → s.redoOp = (some a.invert, ⟨a :: s.undo, rest⟩)) := by
  constructor
  · intro s a
    exact ⟨rfl, rfl⟩
  · rintro ⟨u, r⟩ a rest h
    simp only at h
    subst h
    rfl

/-- C10 witness: redo at a concrete stack returns the inverted action. -/
theorem C10_redo_inverts_witness :
    (UndoStack.mk [] [UndoAction.Create (mkAnn 1 1)]).redoOp =
      (some (UndoAction.Create (mkAnn 1 1)).invert,
        ⟨[UndoAction.Create (mkAnn 1 1)], []⟩) :=
  C10_redo_inverts.2 _ _ _ rfl

/-- Any `Shifted` result carries the original range and the walk offset
applied modulo 2^32 (the shape of src/git/adjust.rs lines 175-187). -/
theorem adjust_shifted_shape (a : Annotation) (d : FileDiff) (os oe ns ne : Nat)
    (h : adjust_annotation a d = AdjustResult.Shifted os oe ns ne) :
    os = a.start_line ∧ oe = a.end_line ∧
    ns = asU32 ((a.start_line : Int) + adjustOffset a d) ∧
    ne = asU32 ((a.end_line : Int) + adjustOffset a d) := by
  cases hs : d.status <;> simp only [ adjust_annotation, hs] at h
  · exact absurd h (by simp)
  · exact absurd h (by simp)
  · split at h
    · exact absurd h (by simp)
    · split at h
      · split at h
        · exact absurd h (by simp)
        · obtain ⟨h1, h2, h3, h4⟩ := AdjustResult.Shifted.injEq .. ▸ h
          exact ⟨h1.symm, h2.symm, h3.symm, h4.symm⟩
      · exact absurd h (by simp)
  · split at h
    · exact absurd h (by simp)
    · split at h
      · split at h
        · exact absurd h (by simp)
        · obtain ⟨h1, h2, h3, h4⟩ := AdjustResult.Shifted.injEq .. ▸ h
          exact ⟨h1.symm, h2.symm, h3.symm, h4.symm⟩
      · exact absurd h (by simp)

/-- C5 counterexample: with two (overlapping) pure-deletion hunks of 9 old
lines each before line 10, the walk offset is -18; on the annotation
[10, 30] the code returns `Shifted 10 30 4294967288 12` — the `u32` cast
wraps `10 - 18` — so neither `new_start = start + offset` nor
`new_end - new_start = end - start` holds as stated. -/
theorem C5_cex :
    adjust_annotation (mkAnn 10 30) (mkDiff [⟨1, 9, 1, 0, []⟩, ⟨1, 9, 1, 0, []⟩]) =
      AdjustResult.Shifted 10 30 4294967288 12 ∧
    adjustOffset (mkAnn 10 30) (mkDiff [⟨1, 9, 1, 0, []⟩, ⟨1, 9, 1, 0, []⟩]) = -18 ∧
    ¬((4294967288 : Int) =
        (10 : Int) + adjustOffset (mkAnn 10 30) (mkDiff [⟨1, 9, 1, 0, []⟩, ⟨1, 9, 1, 0, []⟩])) ∧
    ¬((12 : Int) - (4294967288 : Int) = (30 : Int) - (10 : Int)) := by
  refine ⟨by decide, by decide, ?_, by decide⟩
  rw [show adjustOffset (mkAnn 10 30) (mkDiff [⟨1, 9, 1, 0, []⟩, ⟨1, 9, 1, 0, []⟩]) =
      -18 from by decide]
  decide

/-- C5 (amended): a `Shifted` result carries `old_start = start`,
`old_end = end`, and the new bounds are `start + offset` and `end + offset`
reduced modulo 2^32; whenever `start + offset ≥ 0` and
`end + offset < 2^32` (any realistic diff) the reduction is the identity,
so `new_start = start + offset`, `new_end = end + offset`, and the range
length is preserved exactly. -/
theorem C5_shift_range_preservation (a : Annotation) (d : FileDiff)
    (os oe ns ne : Nat)
    (hse : a.start_line ≤ a.end_line)
    (h : adjust_annotation a d = AdjustResult.Shifted os oe ns ne) :
    os = a.start_line ∧ oe = a.end_line ∧
    ns = asU32 ((a.start_line : Int) + adjustOffset a d) ∧
    ne = asU32 ((a.end_line : Int) + adjustOffset a d) ∧
    (0 ≤ (a.start_line : Int) + adjustOffset a d →
      (a.end_line : Int) + adjustOffset a d < 4294967296 →
      (ns : Int) = (a.start_line : Int) + adjustOffset a d ∧
      (ne : Int) = (a.end_line : Int) + adjustOffset a d ∧
      (ne : Int) - (ns : Int) = (a.end_line : Int) - (a.start_line : Int)) := by
  obtain ⟨h1, h2, h3, h4⟩ := adjust_shifted_shape a d os oe ns ne h
  refine ⟨h1, h2, h3, h4, fun hlo hhi => ?_⟩
  subst h3 h4
  unfold asU32
  rw [Int.emod_eq_of_lt hlo (by omega), Int.emod_eq_of_lt (by omega) hhi]
  rw [Int.toNat_of_nonneg hlo, Int.toNat_of_nonneg (by omega)]
  omega

/-- C5 witness: the insert-before scenario S1 shifts [10, 15] to [13, 18]
with exact arithmetic. -/
theorem C5_shift_range_preservation_witness :
    10 = (mkAnn 10 15).start_line ∧ 15 = (mkAnn 10 15).end_line ∧
    13 = asU32 (((mkAnn 10 15).start_line : Int) +
      adjustOffset (mkAnn 10 15) (mkDiff [⟨1, 0, 1, 3, [addLine 1, addLine 2, addLine 3]⟩])) ∧
    18 = asU32 (((mkAnn 10 15).end_line : Int) +
      adjustOffset (mkAnn 10 15) (mkDiff [⟨1, 0, 1, 3, [addLine 1, addLine 2, addLine 3]⟩])) ∧
    (0 ≤ ((mkAnn 10 15).start_line : Int) +
      adjustOffset (mkAnn 10 15) (mkDiff [⟨1, 0, 1, 3, [addLine 1, addLine 2, addLine 3]⟩]) →
      ((mkAnn 10 15).end_line : Int) +
        adjustOffset (mkAnn 10 15) (mkDiff [⟨1, 0, 1, 3, [addLine 1, addLine 2, addLine 3]⟩]) <
        4294967296 →
      ((13 : Nat) : Int) = ((mkAnn 10 15).start_line : Int) +
        adjustOffset (mkAnn 10 15) (mkDiff [⟨1, 0, 1, 3, [addLine 1, addLine 2, addLine 3]⟩]) ∧
      ((18 : Nat) : Int) = ((mkAnn 10 15).end_line : Int) +
        adjustOffset (mkAnn 10 15) (mkDiff [⟨1, 0, 1, 3, [addLine 1, addLine 2, addLine 3]⟩]) ∧
      ((18 : Nat) : Int) - ((13 : Nat) : Int) =
        ((mkAnn 10 15).end_line : Int) - ((mkAnn 10 15).start_line : Int)) :=
  C5_shift_range_preservation (mkAnn 10 15)
    (mkDiff [⟨1, 0, 1, 3, [addLine 1, addLine 2, addLine 3]⟩]) 10 15 13 18
    (by decide) (by decide)

/-- A hunk's old range never ends before it starts. -/
theorem Hunk.old_start_le_old_end (h : Hunk) : h.old_start ≤ h.old_end := by
  unfold Hunk.old_end
  split <;> omega

/-- In a sorted, non-overlapping hunk list, every later hunk starts strictly
after the first hunk's old range ends. -/
theorem sortedDisjointTail {h : Hunk} {t : List Hunk}
    (hc : hunksSortedDisjoint (h :: t)) : hunksSortedDisjoint t := by
  cases t with
  | nil => trivial
  | cons h2 t => exact hc.2

/-- `natsStrictAsc` agrees with the consecutive-pairs chain predicate. -/
theorem natsStrictAsc_chain' : ∀ l : List Nat,
    natsStrictAsc l ↔ List.Chain' (fun x y => x < y) l
  | [] => by simp [natsStrictAsc]
  | [x] => by simp [natsStrictAsc]
  | x :: y :: t => by
    rw [List.chain'_cons, ← natsStrictAsc_chain' (y :: t)]
    exact Iff.rfl

/-- In a sorted, non-overlapping hunk list, every later hunk starts strictly
after the first hunk's old range ends. -/
theorem sortedDisjoint_later {h : Hunk} {t : List Hunk}
    (hc : hunksSortedDisjoint (h :: t)) : ∀ h' ∈ t, h.old_end < h'.old_start := by
  induction t generalizing h with
  | nil => intro h' hh'; exact absurd hh' (List.not_mem_nil h')
  | cons h2 t ih =>
    have hr : h.old_end < h2.old_start := hc.1
    have hc2 : hunksSortedDisjoint (h2 :: t) := hc.2
    intro h' hh'
    rcases List.mem_cons.mp hh' with rfl | hmem
    · exact hr
    · have h3 := ih hc2 h' hmem
      have h4 := h2.old_start_le_old_end
      omega

/-- Under sorted, non-overlapping, in-bounds hunks, the walk collects exactly
the in-range deleted lines of the whole diff, in order (appended to the
accumulator); the early `break` loses nothing. -/
theorem adjustWalk_dels (s e : Nat) :
    ∀ (hs : List Hunk) (off : Int) (acc : List Nat),
      hunksSortedDisjoint hs → (∀ h ∈ hs, hunkDelsInBounds h) →
      (adjustWalk s e hs off acc).2 = acc ++ delsInRange s e hs := by
  intro hs
  induction hs with
  | nil => intro off acc _ _; simp [adjustWalk, delsInRange]
  | cons h t ih =>
    intro off acc hc hb
    have hct : hunksSortedDisjoint t := sortedDisjointTail hc
    have hbt : ∀ x ∈ t, hunkDelsInBounds x := fun x hx => hb x (List.mem_cons_of_mem _ hx)
    have hbh : hunkDelsInBounds h := hb h (List.mem_cons_self ..)
    unfold adjustWalk
    split
    case isTrue hlt =>
      rw [ih _ _ hct hbt]
      have hfe : h.deleted_old_lines.filter (fun l => inRange s e l) = [] := by
        rw [List.filter_eq_nil_iff]
        intro l hl
        have hbl := hbh l hl
        simp only [inRange, Bool.and_eq_true, decide_eq_true_eq, not_and]
        omega
      simp [delsInRange, hfe]
    case isFalse hge =>
      split
      case isTrue hafter =>
        have h1 : h.deleted_old_lines.filter (fun l => inRange s e l) = [] := by
          rw [List.filter_eq_nil_iff]
          intro l hl
          have hbl := hbh l hl
          simp only [inRange, Bool.and_eq_true, decide_eq_true_eq, not_and]
          omega
        have h2 : delsInRange s e t = [] := by
          unfold delsInRange
          rw [List.flatten_eq_nil_iff]
          intro x hx
          obtain ⟨h', hh', rfl⟩ := List.mem_map.mp hx
          rw [List.filter_eq_nil_iff]
          intro l hl
          have hbl := hbt h' hh' l hl
          have hlater := sortedDisjoint_later hc h' hh'
          have h4 := h.old_start_le_old_end
          simp only [inRange, Bool.and_eq_true, decide_eq_true_eq, not_and]
          omega
        have hsplit : delsInRange s e (h :: t) =
            h.deleted_old_lines.filter (fun l => inRange s e l) ++ delsInRange s e t := by
          simp [delsInRange]
        rw [hsplit, h1, h2]
        simp
      case isFalse hovl =>
        rw [ih _ _ hct hbt]
        simp [delsInRange, List.append_assoc]

/-- Under well-formed hunks the in-range deleted lines are strictly
increasing (hence pairwise distinct). -/
theorem delsInRange_pairwise (s e : Nat) (hs : List Hunk)
    (hc : hunksSortedDisjoint hs) (hb : ∀ h ∈ hs, hunkDelsInBounds h)
    (hm : ∀ h ∈ hs, hunkDelsStrictMono h) :
    List.Pairwise (fun x y => x < y) (delsInRange s e hs) := by
  induction hs with
  | nil => simp [delsInRange]
  | cons h t ih =>
    have hsplit : delsInRange s e (h :: t) =
        h.deleted_old_lines.filter (fun l => inRange s e l) ++ delsInRange s e t := by
      simp [delsInRange]
    rw [hsplit]
    rw [List.pairwise_append]
    refine ⟨?_, ih (sortedDisjointTail hc) (fun x hx => hb x (List.mem_cons_of_mem _ hx))
      (fun x hx => hm x (List.mem_cons_of_mem _ hx)), ?_⟩
    · have hp : List.Pairwise (fun x y => x < y) h.deleted_old_lines :=
        List.chain'_iff_pairwise.mp
          ((natsStrictAsc_chain' _).mp (hm h (List.mem_cons_self ..)))
      exact hp.sublist (List.filter_sublist _)
    · intro x hx y hy
      have hxd := List.mem_of_mem_filter hx
      have hxb := hb h (List.mem_cons_self ..) x hxd
      obtain ⟨z, hz, hyz⟩ := List.mem_flatten.mp hy
      obtain ⟨h', hh', rfl⟩ := List.mem_map.mp hz
      have hyd := List.mem_of_mem_filter hyz
      have hyb := hb h' (List.mem_cons_of_mem _ hh') y hyd
      have hlater := sortedDisjoint_later hc h' hh'
      omega

/-- Reduction modulo 2^32 is the identity below 2^32. -/
theorem asU32_coe (n : Nat) (h : n < 4294967296) : asU32 (n : Int) = n := by
  unfold asU32
  rw [Int.emod_eq_of_lt (by omega) (by omega)]
  omega

/-- C1 counterexample: two inputs whose hunks are sorted and non-overlapping
(as the claim requires) on which the stated classification by the number of
distinct deleted old lines fails.  First input: one hunk whose deletion
lines repeat old line 5; the annotation [5, 6] has one distinct deleted
line (strictly between 0 and 2), yet the code returns `Deleted`, not
`Conflict`, because it counts occurrences.  Second input: a hunk whose
header range [1, 2] ends before the annotation [5, 6] but which carries a
deletion line numbered 5; one distinct line is deleted in range, yet the
code returns `Unchanged` because the walk skips the hunk by its header. -/
theorem C1_cex :
    hunksSortedDisjoint (mkDiff [⟨5, 2, 5, 0, [delLine 5, delLine 5]⟩]).hunks ∧
    (delsInRange 5 6 (mkDiff [⟨5, 2, 5, 0, [delLine 5, delLine 5]⟩]).hunks).dedup.length = 1 ∧
    adjust_annotation (mkAnn 5 6) (mkDiff [⟨5, 2, 5, 0, [delLine 5, delLine 5]⟩]) =
      AdjustResult.Deleted ∧
    hunksSortedDisjoint (mkDiff [⟨1, 2, 2, 2, [delLine 5]⟩]).hunks ∧
    (delsInRange 5 6 (mkDiff [⟨1, 2, 2, 2, [delLine 5]⟩]).hunks).dedup.length = 1 ∧
    adjust_annotation (mkAnn 5 6) (mkDiff [⟨1, 2, 2, 2, [delLine 5]⟩]) =
      AdjustResult.Unchanged := by decide

/-- C1 (amended): for an annotation [start, end] and a Modified or Renamed
diff whose hunks are sorted by old_start and non-overlapping, and whose
deletion lines are strictly increasing within each hunk and lie inside
their hunk's old range (as every real unified diff satisfies), the result
is classified exactly by the count of distinct old lines deleted inside
[start, end]: the full count gives `Deleted`; a count strictly between 0
and the range size gives `Conflict` carrying exactly those lines in order;
a count of 0 with a zero accumulated pre-start offset gives `Unchanged`. -/
theorem C1_deletion_classification (a : Annotation) (d : FileDiff)
    (hstat : d.status = FileDiffStatus.Modified ∨ d.status = FileDiffStatus.Renamed)
    (hc : hunksSortedDisjoint d.hunks)
    (hb : ∀ h ∈ d.hunks, hunkDelsInBounds h)
    (hm : ∀ h ∈ d.hunks, hunkDelsStrictMono h)
    (hse : a.start_line ≤ a.end_line)
    (hlt : a.end_line < 4294967296) :
    ((delsInRange a.start_line a.end_line d.hunks).dedup.length =
        a.end_line - a.start_line + 1 →
      adjust_annotation a d = AdjustResult.Deleted) ∧
    (0 < (delsInRange a.start_line a.end_line d.hunks).dedup.length →
      (delsInRange a.start_line a.end_line d.hunks).dedup.length <
        a.end_line - a.start_line + 1 →
      adjust_annotation a d =
        AdjustResult.Conflict (delsInRange a.start_line a.end_line d.hunks)) ∧
    ((delsInRange a.start_line a.end_line d.hunks).dedup.length = 0 →
      adjustOffset a d = 0 →
      adjust_annotation a d = AdjustResult.Unchanged) := by
  have hdels : adjustDels a d = delsInRange a.start_line a.end_line d.hunks := by
    unfold adjustDels
    rw [adjustWalk_dels _ _ _ _ _ hc hb]
    simp
  have hnd : (delsInRange a.start_line a.end_line d.hunks).Nodup :=
    (delsInRange_pairwise _ _ _ hc hb hm).imp Nat.ne_of_lt
  have hded : (delsInRange a.start_line a.end_line d.hunks).dedup =
      delsInRange a.start_line a.end_line d.hunks := List.dedup_eq_self.mpr hnd
  rw [hded]
  refine ⟨fun hlen => ?_, fun hpos hlen => ?_, fun hzero hoff => ?_⟩
  · rcases hstat with hstat | hstat <;>
      simp [ adjust_annotation, hstat, hdels, hlen]
  · have hne : delsInRange a.start_line a.end_line d.hunks ≠ [] := by
      intro hnil
      rw [hnil] at hpos
      simp at hpos
    rcases hstat with hstat | hstat <;>
      simp [ adjust_annotation, hstat, hdels, Nat.ne_of_lt hlen, hne]
  · have hnil : delsInRange a.start_line a.end_line d.hunks = [] :=
      List.length_eq_zero.mp hzero
    have hstart : asU32 ((a.start_line : Int) + adjustOffset a d) = a.start_line := by
      rw [hoff]
      simpa using asU32_coe a.start_line (by omega)
    have hend : asU32 ((a.end_line : Int) + adjustOffset a d) = a.end_line := by
      rw [hoff]
      simpa using asU32_coe a.end_line (by omega)
    rcases hstat with hstat | hstat <;>
      simp [ adjust_annotation, hstat, hdels, hnil, hstart, hend]

/-- C1 witness: the partial-deletion scenario S4 — deleting lines 6 and 7
of the annotation [5, 10] yields `Conflict [6, 7]`. -/
theorem C1_deletion_classification_witness :
    adjust_annotation (mkAnn 5 10)
        (mkDiff [⟨5, 3, 5, 1, [ctxLine 5 5, delLine 6, delLine 7]⟩]) =
      AdjustResult.Conflict
        (delsInRange 5 10 (mkDiff [⟨5, 3, 5, 1, [ctxLine 5 5, delLine 6, delLine 7]⟩]).hunks) :=
  (C1_deletion_classification (mkAnn 5 10)
      (mkDiff [⟨5, 3, 5, 1, [ctxLine 5 5, delLine 6, delLine 7]⟩])
      (Or.inl rfl) (by decide) (by decide) (by decide) (by decide) (by decide)).2.1
    (by decide) (by decide)

/-- The report component of the rename fold: every `Renamed` diff with both
paths contributes its pair, in order, regardless of the annotations. -/
theorem renameFold_report (now : Nat) :
    ∀ (diffs : List FileDiff) (acc : List Annotation × List (String × String)),
      (diffs.foldl (renameStep now) acc).2 = acc.2 ++ diffs.filterMap renPair := by
  intro diffs
  induction diffs with
  | nil => intro acc; simp
  | cons d t ih =>
    intro acc
    rw [List.foldl_cons, ih]
    cases hp : renPair d with
    | none => simp [renameStep, hp]
    | some p =>
      obtain ⟨o, n⟩ := p
      simp [renameStep, hp]

/-- If no remaining rename introduces path `x` (its new path differs from
`x` unless it is a no-op rename), the fold preserves "no annotation has
path `x`". -/
theorem renameFold_no_path (now : Nat) (x : String) :
    ∀ (diffs : List FileDiff) (anns : List Annotation) (rep : List (String × String)),
      (∀ d' ∈ diffs, ∀ o' n', renPair d' = some (o', n') → (n' ≠ x ∨ o' = n')) →
      (∀ a ∈ anns, a.file_path ≠ x) →
      ∀ a ∈ (diffs.foldl (renameStep now) (anns, rep)).1, a.file_path ≠ x := by
  intro diffs
  induction diffs with
  | nil => intro anns rep _ hinv; simpa using hinv
  | cons d t ih =>
    intro anns rep hcond hinv
    rw [List.foldl_cons]
    cases hp : renPair d with
    | none =>
      simp only [renameStep, hp]
      exact ih anns rep (fun d' hd' => hcond d' (List.mem_cons_of_mem _ hd')) hinv
    | some p =>
      obtain ⟨o, n⟩ := p
      simp only [renameStep, hp]
      apply ih _ _ (fun d' hd' => hcond d' (List.mem_cons_of_mem _ hd'))
      intro a ha
      obtain ⟨b, hb, rfl⟩ := List.mem_map.mp ha
      rcases hcond d (List.mem_cons_self ..) o n hp with hnx | hon
      · by_cases hbo : b.file_path = o
        · simpa [hbo] using hnx
        · simpa [hbo] using hinv b hb
      · by_cases hbo : b.file_path = o
        · have hbx := hinv b hb
          simp only [hbo, if_pos rfl]
          simpa [← hon, hbo] using hbx
        · simpa [hbo] using hinv b hb

/-- After the fold processes a `Renamed` diff `d` with distinct paths, no
annotation carries `d`'s old path, provided no rename in the list maps onto
another rename's old path. -/
theorem renameFold_clears (now : Nat) :
    ∀ (diffs : List FileDiff) (anns : List Annotation) (rep : List (String × String))
      (d : FileDiff) (o n : String),
      d ∈ diffs → renPair d = some (o, n) → o ≠ n →
      (∀ d1 ∈ diffs, ∀ d2 ∈ diffs, renClash d1 d2 = false) →
      ∀ a ∈ (diffs.foldl (renameStep now) (anns, rep)).1, a.file_path ≠ o := by
  intro diffs
  induction diffs with
  | nil => intro anns rep d o n hd; cases hd
  | cons d0 t ih =>
    intro anns rep d o n hd hp hne H
    rcases List.mem_cons.mp hd with rfl | hmem
    · rw [List.foldl_cons]
      simp only [renameStep, hp]
      apply renameFold_no_path now o t _ _ ?_ ?_
      · intro d' hd' o' n' hp'
        have hcl := H d (List.mem_cons_self ..) d' (List.mem_cons_of_mem _ hd')
        unfold renClash at hcl
        rw [hp, hp'] at hcl
        simp only [Bool.and_eq_false_iff, decide_eq_false_iff_not, not_not] at hcl
        rcases hcl with hcl | hcl
        · rcases hcl with hcl | hcl
          · exact absurd hcl (by simpa using hne)
          · exact Or.inr (by simpa using hcl)
        · exact Or.inl hcl
      · intro a ha
        obtain ⟨b, hb, rfl⟩ := List.mem_map.mp ha
        by_cases hbo : b.file_path = o
        · simp only [hbo, if_pos rfl]
          exact fun hno => hne hno.symm
        · simp only [hbo, if_neg hbo]
          exact hbo
    · rw [List.foldl_cons]
      have hstep := ih (renameStep now (anns, rep) d0).1 (renameStep now (anns, rep) d0).2
        d o n hmem hp hne
        (fun d1 h1 d2 h2 => H d1 (List.mem_cons_of_mem _ h1) d2 (List.mem_cons_of_mem _ h2))
      simpa using hstep

/-- C3 counterexample: a swap rename (a→b then b→a) leaves the annotation's
path equal to the old path of the first `Renamed` diff, and the report
carries ("b","a") although no input annotation had path "b" — the code
records every `Renamed` pair unconditionally (src/git/rename.rs line 18). -/
theorem C3_cex :
    ((apply_renames 1 [⟨0, "a", 1, 1, "t", 0, 0⟩]
        [⟨some "a", some "b", [], FileDiffStatus.Renamed⟩,
         ⟨some "b", some "a", [], FileDiffStatus.Renamed⟩]).1.map
      (fun a => a.file_path)) = ["a"] ∧
    renPair ⟨some "a", some "b", [], FileDiffStatus.Renamed⟩ = some ("a", "b") ∧
    (apply_renames 1 [⟨0, "a", 1, 1, "t", 0, 0⟩]
        [⟨some "a", some "b", [], FileDiffStatus.Renamed⟩,
         ⟨some "b", some "a", [], FileDiffStatus.Renamed⟩]).2 =
      [("a", "b"), ("b", "a")] ∧
    (∀ a ∈ [(⟨0, "a", 1, 1, "t", 0, 0⟩ : Annotation)], a.file_path ≠ "b") := by
  refine ⟨by decide, by decide, by decide, by decide⟩

/-- C3 (amended): provided no Renamed diff's new path equals a Renamed
diff's old path (both with distinct present paths — i.e. no rename chains
or swaps), after apply_renames no annotation's file_path equals the
old_path of any Renamed diff with distinct paths; and the returned report
lists exactly the (old_path, new_path) pairs of the Renamed diffs having
both paths present, in diff order, regardless of whether any annotation
matched. -/
theorem C3_renames (now : Nat) (anns : List Annotation) (diffs : List FileDiff)
    (H : ∀ d1 ∈ diffs, ∀ d2 ∈ diffs, renClash d1 d2 = false) :
    (∀ d ∈ diffs, ∀ o n, renPair d = some (o, n) → o ≠ n →
      ∀ a ∈ (apply_renames now anns diffs).1, a.file_path ≠ o) ∧
    (apply_renames now anns diffs).2 = diffs.filterMap renPair := by
  constructor
  · intro d hd o n hp hne
    exact renameFold_clears now diffs anns [] d o n hd hp hne H
  · simpa using renameFold_report now diffs (anns, [])

/-- C3 witness: a single rename old.rs→new.rs rewrites the matching
annotation and reports exactly that pair. -/
theorem C3_renames_witness :
    (∀ a ∈ (apply_renames 1 [⟨0, "old.rs", 1, 5, "n", 0, 0⟩]
        [⟨some "old.rs", some "new.rs", [], FileDiffStatus.Renamed⟩]).1,
      a.file_path ≠ "old.rs") ∧
    (apply_renames 1 [⟨0, "old.rs", 1, 5, "n", 0, 0⟩]
        [⟨some "old.rs", some "new.rs", [], FileDiffStatus.Renamed⟩]).2 =
      [("old.rs", "new.rs")] :=
  ⟨(C3_renames 1 _ _ (by decide)).1
      ⟨some "old.rs", some "new.rs", [], FileDiffStatus.Renamed⟩ (by decide)
      "old.rs" "new.rs" (by decide) (by decide),
   (C3_renames 1 _ _ (by decide)).2⟩

/-- `setFirstById` never introduces an id that was absent. -/
theorem setFirstById_no_id (i ns ne now x : Nat) :
    ∀ N : List Annotation, (∀ a ∈ N, a.id ≠ x) →
      ∀ a ∈ setFirstById i ns ne now N, a.id ≠ x := by
  intro N
  induction N with
  | nil => intro _ a ha; cases ha
  | cons b t ih =>
    intro hN a ha
    unfold setFirstById at ha
    split at ha
    · rcases List.mem_cons.mp ha with rfl | hmem
      · exact hN b (List.mem_cons_self ..)
      · exact hN a (List.mem_cons_of_mem _ hmem)
    · rcases List.mem_cons.mp ha with rfl | hmem
      · exact hN a (List.mem_cons_self ..)
      · exact ih (fun c hc => hN c (List.mem_cons_of_mem _ hc)) a hmem

/-- One application step never introduces an id that was absent. -/
theorem applyOne_no_id (now x : Nat) (N : List Annotation)
    (pr : Annotation × AdjustResult)
    (hN : ∀ a ∈ N, a.id ≠ x) : ∀ a ∈ applyOne now N pr, a.id ≠ x := by
  unfold applyOne
  split
  · exact setFirstById_no_id _ _ _ _ x N hN
  · intro a ha; exact hN a (List.mem_of_mem_filter ha)
  · exact hN
  · exact hN

/-- The whole batch never introduces an id that was absent. -/
theorem applyAll_no_id (now x : Nat) :
    ∀ (R : List ( Annotation × AdjustResult)) (N : List Annotation),
      (∀ a ∈ N, a.id ≠ x) → ∀ a ∈ apply_adjustments now N R, a.id ≠ x := by
  intro R
  induction R with
  | nil => intro N hN; exact hN
  | cons pr R ih =>
    intro N hN
    exact ih _ (applyOne_no_id now x N pr hN)

/-- Updating an id different from `x` leaves the `x`-entries untouched. -/
theorem setFirstById_filter_other (i ns ne now x : Nat) (hix : i ≠ x) :
    ∀ N : List Annotation,
      (setFirstById i ns ne now N).filter (fun a => a.id == x) =
        N.filter (fun a => a.id == x) := by
  intro N
  induction N with
  | nil => rfl
  | cons b t ih =>
    by_cases hb : b.id = i
    · simp only [setFirstById, if_pos hb, List.filter_cons]
      have h1 : (b.id == x) = false := by simp [hb, hix]
      simp [h1, hb, hix]
    · simp only [setFirstById, if_neg hb, List.filter_cons, ih]

/-- Removing an id different from `x` leaves the `x`-entries untouched. -/
theorem filter_ne_filter_eq (y x : Nat) (hyx : y ≠ x) :
    ∀ N : List Annotation,
      (N.filter (fun a => a.id != y)).filter (fun a => a.id == x) =
        N.filter (fun a => a.id == x) := by
  intro N
  induction N with
  | nil => rfl
  | cons b t ih =>
    by_cases hb : b.id = x
    · have h1 : (b.id != y) = true := by simp [hb]; omega
      simp [List.filter_cons, h1, hb, ih, Ne.symm hyx, hyx]
    · by_cases hby : b.id = y
      · simp [List.filter_cons, hb, hby, ih, Ne.symm hyx, hyx]
      · simp [List.filter_cons, hb, hby, ih, Ne.symm hyx, hyx]

/-- One application step for a result on another id leaves the `x`-entries
untouched. -/
theorem applyOne_filter_other (now x : Nat) (N : List Annotation)
    (pr : Annotation × AdjustResult) (hne : pr.1.id ≠ x) :
    (applyOne now N pr).filter (fun a => a.id == x) =
      N.filter (fun a => a.id == x) := by
  unfold applyOne
  split
  · exact setFirstById_filter_other _ _ _ _ x hne N
  · exact filter_ne_filter_eq _ x hne N
  · rfl
  · rfl

/-- A batch whose results all concern other ids leaves the `x`-entries
untouched. -/
theorem applyAll_filter_other (now x : Nat) :
    ∀ (R : List ( Annotation × AdjustResult)) (N : List Annotation),
      (∀ pr ∈ R, pr.1.id ≠ x) →
      (apply_adjustments now N R).filter (fun a => a.id == x) =
        N.filter (fun a => a.id == x) := by
  intro R
  induction R with
  | nil => intro N _; rfl
  | cons pr R ih =>
    intro N hR
    rw [show apply_adjustments now N (pr :: R) =
        apply_adjustments now (applyOne now N pr) R from rfl]
    rw [ih _ (fun q hq => hR q (List.mem_cons_of_mem _ hq))]
    exact applyOne_filter_other now x N pr (hR pr (List.mem_cons_self ..))

/-- The effect of `setFirstById` on the `x`-entries: the first one (if any)
gets the new fields; the rest are untouched. -/
theorem setFirstById_filter_self (x ns ne now : Nat) :
    ∀ N : List Annotation,
      (setFirstById x ns ne now N).filter (fun a => a.id == x) =
        match N.filter (fun a => a.id == x) with
        | [] => []
        | b :: bs =>
          { b with start_line := ns, end_line := ne, updated_at := now } :: bs := by
  intro N
  induction N with
  | nil => rfl
  | cons b t ih =>
    by_cases hb : b.id = x
    · simp [setFirstById, hb, List.filter_cons]
    · simp [setFirstById, hb, List.filter_cons, ih]

/-- `setFirstById` is the identity when the first matching entry already
carries the target fields (or when nothing matches). -/
theorem setFirstById_self (x ns ne now : Nat) :
    ∀ N : List Annotation,
      (∀ b, (N.filter (fun a => a.id == x)).head? = some b →
        b.start_line = ns ∧ b.end_line = ne ∧ b.updated_at = now) →
      setFirstById x ns ne now N = N := by
  intro N
  induction N with
  | nil => intro _; rfl
  | cons b t ih =>
    intro hh
    by_cases hb : b.id = x
    · have hfb : (((b :: t).filter (fun a => a.id == x))).head? = some b := by
        simp [List.filter_cons, hb]
      obtain ⟨h1, h2, h3⟩ := hh b hfb
      simp only [setFirstById, if_pos hb]
      congr 1
      cases b
      simp_all
    · simp only [setFirstById, if_neg hb]
      congr 1
      apply ih
      intro c hc
      apply hh
      simpa [List.filter_cons, hb] using hc

/-- `applyOne` on a `Shifted` result is the first-match update. -/
theorem applyOne_eq_shifted (now : Nat) (M : List Annotation)
    (pr : Annotation × AdjustResult) (os oe ns ne : Nat)
    (h : pr.2 = AdjustResult.Shifted os oe ns ne) :
    applyOne now M pr = setFirstById pr.1.id ns ne now M := by
  unfold applyOne; rw [h]

/-- `applyOne` on a `Deleted` result is the id-retain filter. -/
theorem applyOne_eq_deleted (now : Nat) (M : List Annotation)
    (pr : Annotation × AdjustResult) (h : pr.2 = AdjustResult.Deleted) :
    applyOne now M pr = M.filter (fun a => a.id != pr.1.id) := by
  unfold applyOne; rw [h]

/-- `applyOne` on a `Conflict` result is a no-op. -/
theorem applyOne_eq_conflict (now : Nat) (M : List Annotation)
    (pr : Annotation × AdjustResult) (dels : List Nat)
    (h : pr.2 = AdjustResult.Conflict dels) : applyOne now M pr = M := by
  unfold applyOne; rw [h]

/-- `applyOne` on an `Unchanged` result is a no-op. -/
theorem applyOne_eq_unchanged (now : Nat) (M : List Annotation)
    (pr : Annotation × AdjustResult) (h : pr.2 = AdjustResult.Unchanged) :
    applyOne now M pr = M := by
  unfold applyOne; rw [h]

/-- Applying the same batch twice (same clock) is the same as applying it
once, for batches whose original annotations carry pairwise distinct ids. -/
theorem applyAll_twice (now : Nat) :
    ∀ (R : List ( Annotation × AdjustResult)) (N : List Annotation),
      (R.map (fun pr => pr.1.id)).Nodup →
      apply_adjustments now (apply_adjustments now N R) R =
        apply_adjustments now N R := by
  intro R
  induction R with
  | nil => intro N _; rfl
  | cons pr R ih =>
    intro N hnd
    rw [List.map_cons] at hnd
    obtain ⟨hx, hnd2⟩ := List.nodup_cons.mp hnd
    have hids : ∀ q ∈ R, q.1.id ≠ pr.1.id := by
      intro q hq heq
      exact hx (heq ▸ List.mem_map_of_mem _ hq)
    have hRHS : apply_adjustments now N (pr :: R) =
        apply_adjustments now (applyOne now N pr) R := rfl
    have hkey : applyOne now (apply_adjustments now (applyOne now N pr) R) pr =
        apply_adjustments now (applyOne now N pr) R := by
      cases hpr : pr.2 with
      | Shifted os oe ns ne =>
        rw [applyOne_eq_shifted now (apply_adjustments now (applyOne now N pr) R)
          pr os oe ns ne hpr]
        apply setFirstById_self
        intro b hb
        rw [applyAll_filter_other now pr.1.id R (applyOne now N pr) hids] at hb
        rw [applyOne_eq_shifted now N pr os oe ns ne hpr, setFirstById_filter_self] at hb
        cases hNf : N.filter (fun a => a.id == pr.1.id) with
        | nil => rw [hNf] at hb; simp at hb
        | cons c cs =>
          rw [hNf] at hb
          simp only [List.head?_cons, Option.some.injEq] at hb
          rw [← hb]
          exact ⟨rfl, rfl, rfl⟩
      | Conflict dels =>
        rw [applyOne_eq_conflict now (apply_adjustments now (applyOne now N pr) R)
          pr dels hpr]
      | Deleted =>
        rw [applyOne_eq_deleted now (apply_adjustments now (applyOne now N pr) R) pr hpr]
        apply List.filter_eq_self.mpr
        intro a ha
        have hL1no : ∀ c ∈ applyOne now N pr, c.id ≠ pr.1.id := by
          intro c hc
          rw [applyOne_eq_deleted now N pr hpr] at hc
          simpa using (List.of_mem_filter hc)
        have hMno := applyAll_no_id now pr.1.id R (applyOne now N pr) hL1no
        simpa using hMno a ha
      | Unchanged =>
        rw [applyOne_eq_unchanged now (apply_adjustments now (applyOne now N pr) R) pr hpr]
    calc apply_adjustments now (apply_adjustments now N (pr :: R)) (pr :: R)
        = apply_adjustments now
            (applyOne now (apply_adjustments now (applyOne now N pr) R) pr) R := by
          rw [hRHS]; rfl
      _ = apply_adjustments now (apply_adjustments now (applyOne now N pr) R) R := by
          rw [hkey]
      _ = apply_adjustments now (applyOne now N pr) R := ih (applyOne now N pr) hnd2
      _ = apply_adjustments now N (pr :: R) := hRHS.symm

/-- The results computed by `adjust_annotations` carry the input annotations
(and hence their ids) in order. -/
theorem adjust_annotations_ids (anns : List Annotation) (diffs : List FileDiff) :
    (adjust_annotations anns diffs).map (fun pr => pr.1.id) =
      anns.map (fun a => a.id) := by
  unfold adjust_annotations
  rw [List.map_map]
  apply List.map_congr_left
  intro a _
  simp only [Function.comp_apply]
  cases diffs.find? (fun d =>
      d.old_path == some a.file_path || d.new_path == some a.file_path) <;> rfl

/-- C4 counterexample: the claim fails on timestamps.  Applying a `Shifted`
result bumps `updated_at` to the current clock (src/git/adjust.rs line 221),
so a second application at a later clock yields a different annotation
list than the single application did. -/
theorem C4_cex :
    apply_adjustments 2
        (apply_adjustments 1 [mkAnn 2 2]
          (adjust_annotations [mkAnn 2 2] [mkDiff [⟨1, 0, 1, 1, [addLine 1]⟩]]))
        (adjust_annotations [mkAnn 2 2] [mkDiff [⟨1, 0, 1, 1, [addLine 1]⟩]]) ≠
      apply_adjustments 1 [mkAnn 2 2]
        (adjust_annotations [mkAnn 2 2] [mkDiff [⟨1, 0, 1, 1, [addLine 1]⟩]]) := by
  decide

/-- C4 (amended): apply_adjustments is idempotent up to `updated_at`: for
annotation lists with pairwise distinct ids (the data-model invariant),
applying a result set computed from the list twice, with the same clock
reading for both passes, yields exactly the same annotation list as
applying it once; and adjust_annotations against an empty diff list
returns `Unchanged` for every annotation. -/
theorem C4_idempotent_application :
    (∀ (anns : List Annotation) (diffs : List FileDiff) (now : Nat),
      (anns.map (fun a => a.id)).Nodup →
      apply_adjustments now
          (apply_adjustments now anns (adjust_annotations anns diffs))
          (adjust_annotations anns diffs) =
        apply_adjustments now anns (adjust_annotations anns diffs)) ∧
    (∀ anns : List Annotation,
      adjust_annotations anns [] = anns.map (fun a => (a, AdjustResult.Unchanged))) := by
  constructor
  · intro anns diffs now hnd
    apply applyAll_twice
    rw [ adjust_annotations_ids]
    exact hnd
  · intro anns
    unfold adjust_annotations
    apply List.map_congr_left
    intro a _
    rfl

/-- C4 witness: the same-clock double application at a concrete shifted
annotation, and the empty-diff pass at a concrete list. -/
theorem C4_idempotent_application_witness :
    apply_adjustments 1
        (apply_adjustments 1 [mkAnn 2 2]
          (adjust_annotations [mkAnn 2 2] [mkDiff [⟨1, 0, 1, 1, [addLine 1]⟩]]))
        (adjust_annotations [mkAnn 2 2] [mkDiff [⟨1, 0, 1, 1, [addLine 1]⟩]]) =
      apply_adjustments 1 [mkAnn 2 2]
        (adjust_annotations [mkAnn 2 2] [mkDiff [⟨1, 0, 1, 1, [addLine 1]⟩]]) ∧
    adjust_annotations [mkAnn 1 1] [] =
      [mkAnn 1 1].map (fun a => (a, AdjustResult.Unchanged)) :=
  ⟨C4_idempotent_application.1 [mkAnn 2 2] [mkDiff [⟨1, 0, 1, 1, [addLine 1]⟩]] 1
      (by decide),
   C4_idempotent_application.2 [mkAnn 1 1]⟩

/-- Stripping a literal off its own append succeeds. -/
theorem stripLit_append : ∀ (p r : List Char), stripLit p (p ++ r) = some r := by
  intro p
  induction p with
  | nil => intro r; rfl
  | cons c p ih => intro r; simpa [stripLit] using ih r

/-- `digitChar` produces characters in the digit range. -/
theorem isDigitChar_digitChar (n : Nat) (h : n < 10) :
    isDigitChar (digitChar n) = true := by
  interval_cases n <;> decide

/-- The numeric value of a rendered digit. -/
theorem digitChar_val (n : Nat) (h : n < 10) : (digitChar n).toNat - 48 = n := by
  interval_cases n <;> decide

/-- The accumulator of `natToDigitsAux` is a plain suffix. -/
theorem natToDigitsAux_acc :
    ∀ (fuel n : Nat) (acc : List Char),
      natToDigitsAux fuel n acc = natToDigitsAux fuel n [] ++ acc := by
  intro fuel
  induction fuel with
  | zero => intro n acc; rfl
  | succ fuel ih =>
    intro n acc
    by_cases h : n < 10
    · simp [natToDigitsAux, h]
    · simp only [natToDigitsAux, if_neg h]
      rw [ih (n / 10) (digitChar (n % 10) :: acc), ih (n / 10) [digitChar (n % 10)]]
      simp

/-- Every character of a decimal rendering is a digit. -/
theorem natToDigitsAux_digits :
    ∀ (fuel n : Nat), n < fuel → ∀ c ∈ natToDigitsAux fuel n [], isDigitChar c = true := by
  intro fuel
  induction fuel with
  | zero => intro n h; omega
  | succ fuel ih =>
    intro n h c hc
    by_cases h10 : n < 10
    · simp only [natToDigitsAux, if_pos h10, List.mem_singleton] at hc
      subst hc
      exact isDigitChar_digitChar _ (Nat.mod_lt _ (by omega))
    · simp only [natToDigitsAux, if_neg h10] at hc
      rw [natToDigitsAux_acc] at hc
      rcases List.mem_append.mp hc with hm | hm
      · exact ih (n / 10) (by omega) c hm
      · simp only [List.mem_singleton] at hm
        subst hm
        exact isDigitChar_digitChar _ (Nat.mod_lt _ (by omega))

/-- The decimal rendering evaluates back to its number. -/
theorem digitsToNat_natToDigitsAux :
    ∀ (fuel n : Nat), n < fuel → digitsToNat (natToDigitsAux fuel n []) = n := by
  intro fuel
  induction fuel with
  | zero => intro n h; omega
  | succ fuel ih =>
    intro n h
    by_cases h10 : n < 10
    · simp only [natToDigitsAux, if_pos h10]
      unfold digitsToNat
      simp only [List.foldl_cons, List.foldl_nil]
      rw [digitChar_val _ (by omega)]
      omega
    · simp only [natToDigitsAux, if_neg h10]
      rw [natToDigitsAux_acc]
      unfold digitsToNat
      rw [List.foldl_append]
      have hrec := ih (n / 10) (by omega)
      unfold digitsToNat at hrec
      rw [hrec]
      simp only [List.foldl_cons, List.foldl_nil]
      rw [digitChar_val _ (Nat.mod_lt _ (by omega))]
      omega

/-- The decimal rendering is never empty. -/
theorem natToString_ne_nil (n : Nat) : natToString n ≠ [] := by
  unfold natToString natToDigitsAux
  split
  · simp
  · rw [natToDigitsAux_acc]
    simp

/-- `takeDigits` splits a digit run followed by a non-digit boundary. -/
theorem takeDigits_append :
    ∀ (ds r : List Char), (∀ c ∈ ds, isDigitChar c = true) → headIsDigit r = false →
      takeDigits (ds ++ r) = (ds, r) := by
  intro ds
  induction ds with
  | nil =>
    intro r _ hr
    cases r with
    | nil => rfl
    | cons c t =>
      simp only [headIsDigit] at hr
      simp [takeDigits, hr]
  | cons c ds ih =>
    intro r hds hr
    have hc : isDigitChar c = true := hds c (List.mem_cons_self ..)
    simp only [List.cons_append, takeDigits, hc, if_pos, List.append_eq]
    rw [ih r (fun x hx => hds x (List.mem_cons_of_mem _ hx)) hr]

/-- Round trip of the decimal token parser. -/
theorem parseNatTok_round (n : Nat) (r : List Char) (hr : headIsDigit r = false) :
    parseNatTok (natToString n ++ r) = some (n, r) := by
  unfold parseNatTok
  rw [takeDigits_append (natToString n) r
    (natToDigitsAux_digits (n + 1) n (by omega)) hr]
  have hne : ¬((natToString n, r).1 = []) := by simpa using natToString_ne_nil n
  rw [if_neg hne]
  have hval : digitsToNat (natToString n) = n :=
    digitsToNat_natToDigitsAux (n + 1) n (by omega)
  simp [hval]


/-- Hex digit round trip (values below 16). -/
theorem hexVal_hexDigitChar (n : Nat) (h : n < 16) :
    hexVal (hexDigitChar n) = some n := by
  interval_cases n <;> decide

/-- Round trip of the JSON string parser: parsing the escape of `s` followed
by a closing quote recovers `s` and the rest of the input. -/
theorem parseJString_round :
    ∀ (s r : List Char), parseJString (escString s ++ '"' :: r) = some (s, r) := by
  intro s
  induction s with
  | nil =>
    intro r
    rw [show escString [] = [] from rfl, List.nil_append, parseJString.eq_def]
    simp
  | cons c t ih =>
    intro r
    have hsplit : escString (c :: t) = escChar c ++ escString t := by
      simp [escString]
    rw [hsplit, List.append_assoc]
    unfold escChar
    by_cases h1 : c = '"'
    · subst h1
      simp only [if_pos rfl, List.cons_append, List.nil_append]
      rw [parseJString.eq_def]
      simp [ih r]
    · by_cases h2 : c = '\\'
      · subst h2
        simp only [if_neg h1, if_pos rfl, List.cons_append, List.nil_append]
        rw [parseJString.eq_def]
        simp [ih r]
      · by_cases h3 : c.toNat < 32
        · simp only [if_neg h1, if_neg h2, if_pos h3, List.cons_append, List.nil_append]
          rw [parseJString.eq_def]
          have e1 : hexVal (hexDigitChar (c.toNat / 16)) = some (c.toNat / 16) :=
            hexVal_hexDigitChar _ (by omega)
          have e2 : hexVal (hexDigitChar (c.toNat % 16)) = some (c.toNat % 16) :=
            hexVal_hexDigitChar _ (by omega)
          simp [e1, e2, ih r]
          have e0 : hexVal '0' = some 0 := by decide
          simp only [e0]
          have hv : ((0 * 16 + 0) * 16 + c.toNat / 16) * 16 + c.toNat % 16 = c.toNat := by
            omega
          rw [hv, Char.ofNat_toNat]
        · simp only [if_neg h1, if_neg h2, if_neg h3, List.cons_append, List.nil_append]
          rw [parseJString.eq_def]
          simp [h1, h2, h3, ih r]

/-! ## Store lemmas: literal facts (proved while the fragments unfold). -/

/-- The fragment after the id digits starts with a quote, not a digit. -/
theorem headIsDigit_append_litB (x : List Char) : headIsDigit (litB ++ x) = false := rfl

/-- The fragment after the start_line digits starts with a comma. -/
theorem headIsDigit_append_litD (x : List Char) : headIsDigit (litD ++ x) = false := rfl

/-- The fragment after the end_line digits starts with a comma. -/
theorem headIsDigit_append_litE (x : List Char) : headIsDigit (litE ++ x) = false := rfl

/-- The fragment after the created_at digits starts with a quote. -/
theorem headIsDigit_append_litG (x : List Char) : headIsDigit (litG ++ x) = false := rfl

/-- The closing fragment starts with a quote, not a digit. -/
theorem headIsDigit_litH : headIsDigit litH = false := rfl

/-- Stripping the closing fragment off itself leaves nothing. -/
theorem stripLit_litH_self : stripLit litH litH = some [] := rfl

/-- Every record line starts with an opening brace. -/
theorem encodeAnn_head (a : Annotation) : (encodeAnn a).head? = some (Char.ofNat 123) := rfl

/-- Every record line ends with a closing brace. -/
theorem encodeAnn_getLast (a : Annotation) :
    (encodeAnn a).getLast? = some (Char.ofNat 125) := by
  unfold encodeAnn
  rw [List.getLast?_append]
  rfl

/-- No literal fragment contains a newline. -/
theorem nl_not_mem_lits :
    ('\n' ∉ litA) ∧ ('\n' ∉ litB) ∧ ('\n' ∉ litC) ∧ ('\n' ∉ litD) ∧
    ('\n' ∉ litE) ∧ ('\n' ∉ litF) ∧ ('\n' ∉ litG) ∧ ('\n' ∉ litH) := by
  refine ⟨?_, ?_, ?_, ?_, ?_, ?_, ?_, ?_⟩ <;> decide

/-- A hex digit character is never a newline. -/
theorem hexDigitChar_ne_nl (m : Nat) (h : m < 16) : hexDigitChar m ≠ '\n' := by
  interval_cases m <;> decide

attribute [irreducible] litA litB litC litD litE litF litG litH

/-! ## Store lemmas: the encoded record round-trips and is line-clean. -/

/-- Digit runs contain no newline. -/
theorem nl_not_mem_natToString (n : Nat) : '\n' ∉ natToString n := by
  intro h
  have hd := natToDigitsAux_digits (n + 1) n (by omega) _ h
  exact absurd hd (by decide)

/-- Escaped string content contains no newline. -/
theorem nl_not_mem_escString (s : List Char) : '\n' ∉ escString s := by
  intro h
  unfold escString at h
  obtain ⟨l, hl, hmem⟩ := List.mem_flatten.mp h
  obtain ⟨c, _, rfl⟩ := List.mem_map.mp hl
  unfold escChar at hmem
  split at hmem
  · exact absurd hmem (by decide)
  · split at hmem
    · exact absurd hmem (by decide)
    · split at hmem
      case isTrue h32 =>
        simp only [List.mem_cons, List.not_mem_nil, or_false] at hmem
        rcases hmem with h1 | h1 | h1 | h1 | h1 | h1
        · exact absurd h1.symm (by decide)
        · exact absurd h1.symm (by decide)
        · exact absurd h1.symm (by decide)
        · exact absurd h1.symm (by decide)
        · exact absurd h1.symm (hexDigitChar_ne_nl _ (by omega))
        · exact absurd h1.symm (hexDigitChar_ne_nl _ (by omega))
      case isFalse h32 =>
        simp only [List.mem_singleton] at hmem
        subst hmem
        exact h32 (by decide)

/-- The encoded record is a single line: it contains no newline. -/
theorem nl_not_mem_encodeAnn (a : Annotation) : '\n' ∉ encodeAnn a := by
  have hl := nl_not_mem_lits
  unfold encodeAnn
  intro h
  simp only [List.append_assoc, List.cons_append, List.mem_append, List.mem_cons] at h
  rcases h with h | h | h | h | h | h | h | h | h | h | h | h | h | h | h | h | h
  · exact hl.1 h
  · exact nl_not_mem_natToString _ h
  · exact hl.2.1 h
  · exact nl_not_mem_escString _ h
  · exact absurd h (by decide)
  · exact hl.2.2.1 h
  · exact nl_not_mem_natToString _ h
  · exact hl.2.2.2.1 h
  · exact nl_not_mem_natToString _ h
  · exact hl.2.2.2.2.1 h
  · exact nl_not_mem_escString _ h
  · exact absurd h (by decide)
  · exact hl.2.2.2.2.2.1 h
  · exact nl_not_mem_natToString _ h
  · exact hl.2.2.2.2.2.2.1 h
  · exact nl_not_mem_natToString _ h
  · exact hl.2.2.2.2.2.2.2 h

/-- Round trip of a literal fragment followed by a decimal field. -/
theorem parseNatField_round (lit : List Char) (n : Nat) (r : List Char)
    (hr : headIsDigit r = false) :
    parseNatField lit (lit ++ (natToString n ++ r)) = some (n, r) := by
  unfold parseNatField
  rw [stripLit_append]
  exact parseNatTok_round n r hr

/-- Round trip of a literal fragment followed by a JSON string field. -/
theorem parseStrField_round (lit : List Char) (s r : List Char) :
    parseStrField lit (lit ++ (escString s ++ '"' :: r)) = some (s, r) := by
  unfold parseStrField
  rw [stripLit_append]
  exact parseJString_round s r

/-- The closing fragment parses and leaves nothing behind. -/
theorem parseAnnEnd_round : parseAnnEnd litH = some () := by
  unfold parseAnnEnd
  rw [stripLit_litH_self]

/-- The record parser inverts the record encoder on every annotation. -/
theorem parseAnn_encodeAnn (a : Annotation) : parseAnn (encodeAnn a) = some a := by
  have henc : encodeAnn a = litA ++ (natToString a.id ++ (litB ++ (escString a.file_path.data ++
      ('"' :: (litC ++ (natToString a.start_line ++ (litD ++ (natToString a.end_line ++
      (litE ++ (escString a.text.data ++ ('"' :: (litF ++ (natToString a.created_at ++
      (litG ++ (natToString a.updated_at ++ litH))))))))))))))) := by
    unfold encodeAnn
    simp only [List.append_assoc, List.cons_append]
  unfold parseAnn
  rw [henc, parseNatField_round litA a.id _ (headIsDigit_append_litB _)]
  dsimp only [Option.some_bind]
  rw [parseStrField_round litB a.file_path.data _]
  dsimp only [Option.some_bind]
  rw [parseNatField_round litC a.start_line _ (headIsDigit_append_litD _)]
  dsimp only [Option.some_bind]
  rw [parseNatField_round litD a.end_line _ (headIsDigit_append_litE _)]
  dsimp only [Option.some_bind]
  rw [parseStrField_round litE a.text.data _]
  dsimp only [Option.some_bind]
  rw [parseNatField_round litF a.created_at _ (headIsDigit_append_litG _)]
  dsimp only [Option.some_bind]
  rw [parseNatField_round litG a.updated_at _ headIsDigit_litH]
  dsimp only [Option.some_bind]
  rw [parseAnnEnd_round]
  rfl

/-- `trimChars` is the identity on lines with non-blank first and last
characters. -/
theorem trimChars_eq_self (l : List Char)
    (h1 : ∀ c, l.head? = some c → isWsChar c = false)
    (h2 : ∀ c, l.getLast? = some c → isWsChar c = false) :
    trimChars l = l := by
  unfold trimChars
  have hd : l.dropWhile isWsChar = l := by
    cases l with
    | nil => rfl
    | cons c t =>
      rw [List.dropWhile_cons, h1 c rfl]
      simp
  rw [hd]
  have hr : l.reverse.dropWhile isWsChar = l.reverse := by
    cases hlr : l.reverse with
    | nil => rfl
    | cons c t =>
      have hc : l.getLast? = some c := by
        rw [← List.head?_reverse, hlr]
        rfl
      rw [List.dropWhile_cons, h2 c hc]
      simp
  rw [hr, List.reverse_reverse]

/-- The encoded record survives `trim` unchanged. -/
theorem trimChars_encodeAnn (a : Annotation) : trimChars (encodeAnn a) = encodeAnn a := by
  apply trimChars_eq_self
  · intro c hc
    rw [encodeAnn_head a] at hc
    cases hc
    decide
  · intro c hc
    rw [encodeAnn_getLast a] at hc
    cases hc
    decide

/-- The encoded record is not an empty line. -/
theorem encodeAnn_ne_nil (a : Annotation) : encodeAnn a ≠ [] := by
  intro h
  have hh := encodeAnn_head a
  rw [h] at hh
  cases hh

/-- The encoded record does not end in a carriage return. -/
theorem stripCr_encodeAnn (a : Annotation) : stripCr (encodeAnn a) = encodeAnn a := by
  unfold stripCr
  rw [encodeAnn_getLast a]
  rw [if_neg (by decide)]

/-! ## Line-splitting lemmas (model of `str::lines`). -/

/-- Unfolding equation of `splitNl` at a newline. -/
theorem splitNl_cons_nl (t : List Char) : splitNl ('\n' :: t) = [] :: splitNl t := by
  simp [splitNl]

/-- Unfolding equation of `splitNl` at an ordinary character. -/
theorem splitNl_cons_other (c : Char) (t : List Char) (hc : ¬(c = '\n')) :
    splitNl (c :: t) = (splitNl t).modifyHead (fun l => c :: l) := by
  simp [splitNl, hc]

/-- `splitNl` never returns the empty list. -/
theorem splitNl_ne_nil : ∀ s : List Char, splitNl s ≠ []
  | [] => by simp [splitNl]
  | c :: rest => by
    unfold splitNl
    split
    · simp
    · cases h : splitNl rest with
      | nil => exact absurd h (splitNl_ne_nil rest)
      | cons x xs => simp

/-- Splitting a newline-free line glued on with a newline. -/
theorem splitNl_append_nl :
    ∀ (l t : List Char), '\n' ∉ l → splitNl (l ++ '\n' :: t) = l :: splitNl t := by
  intro l
  induction l with
  | nil => intro t _; simp [splitNl]
  | cons c l ih =>
    intro t hnl
    have hc : ¬(c = '\n') := fun h => hnl (h ▸ List.mem_cons_self ..)
    rw [List.cons_append, splitNl_cons_other c _ hc, ih t (fun h => hnl (List.mem_cons_of_mem _ h))]
    rfl

/-- The split of a saved batch: one segment per record plus a final empty
segment from the trailing newline. -/
theorem splitNl_save :
    ∀ L : List Annotation, splitNl (save_annotations L) = L.map encodeAnn ++ [[]] := by
  intro L
  induction L with
  | nil => rfl
  | cons a L ih =>
    show splitNl ((encodeAnn a ++ ['\n']) ++ save_annotations L) = _
    rw [List.append_assoc]
    rw [show (['\n'] : List Char) ++ save_annotations L = '\n' :: save_annotations L from rfl]
    rw [splitNl_append_nl _ _ (nl_not_mem_encodeAnn a), ih]
    rfl

/-- `rustLines` of a saved batch is exactly the encoded records. -/
theorem rustLines_save (L : List Annotation) :
    rustLines (save_annotations L) = L.map encodeAnn := by
  unfold rustLines rustLinesRaw
  rw [splitNl_save, List.getLast?_concat, if_pos rfl, List.dropLast_concat, List.map_map]
  exact List.map_congr_left (fun a _ => stripCr_encodeAnn a)

/-- A newline in the input forces at least two segments. -/
theorem splitNl_length2 : ∀ l : List Char, '\n' ∈ l → 2 ≤ (splitNl l).length := by
  intro l
  induction l with
  | nil => intro h; cases h
  | cons c t ih =>
    intro h
    by_cases hc : c = '\n'
    · subst hc
      rw [splitNl_cons_nl, List.length_cons]
      have h1 : 1 ≤ (splitNl t).length :=
        List.length_pos.mpr (splitNl_ne_nil t)
      omega
    · have hmem : '\n' ∈ t := by
        rcases List.mem_cons.mp h with h1 | h1
        · exact absurd h1.symm hc
        · exact h1
      have h2 := ih hmem
      rw [splitNl_cons_other c t hc]
      cases hs : splitNl t with
      | nil => exact absurd hs (splitNl_ne_nil t)
      | cons x xs =>
        rw [hs] at h2
        simp only [List.modifyHead_cons, List.length_cons] at h2 ⊢
        omega

/-- Splitting distributes over a newline-terminated prefix. -/
theorem splitNl_append_terminated :
    ∀ (F t : List Char), F.getLast? = some '\n' →
      splitNl (F ++ t) = (splitNl F).dropLast ++ splitNl t := by
  intro F
  induction F with
  | nil => intro t h; cases h
  | cons c F ih =>
    intro t hlast
    cases hF : F with
    | nil =>
      subst hF
      have hc : c = '\n' := by simpa using hlast
      subst hc
      rw [show (['\n'] : List Char) ++ t = '\n' :: t from rfl,
        splitNl_cons_nl, splitNl_cons_nl]
      rfl
    | cons d F' =>
      subst hF
      rw [List.getLast?_cons_cons] at hlast
      have hmem : '\n' ∈ d :: F' := List.mem_of_getLast?_eq_some hlast
      have hlen := splitNl_length2 _ hmem
      by_cases hc : c = '\n'
      · subst hc
        rw [show ('\n' :: d :: F') ++ t = '\n' :: ((d :: F') ++ t) from rfl,
          splitNl_cons_nl, splitNl_cons_nl, ih t hlast]
        cases hs : splitNl (d :: F') with
        | nil => exact absurd hs (splitNl_ne_nil _)
        | cons x xs =>
          rw [hs] at hlen
          cases xs with
          | nil => simp at hlen
          | cons y ys => simp
      · rw [show (c :: d :: F') ++ t = c :: ((d :: F') ++ t) from rfl,
          splitNl_cons_other c _ hc, splitNl_cons_other c _ hc, ih t hlast]
        cases hs : splitNl (d :: F') with
        | nil => exact absurd hs (splitNl_ne_nil _)
        | cons x xs =>
          rw [hs] at hlen
          cases xs with
          | nil => simp at hlen
          | cons y ys => simp

/-- A newline-terminated file splits with a trailing empty segment. -/
theorem splitNl_getLast_terminated :
    ∀ F : List Char, F.getLast? = some '\n' → (splitNl F).getLast? = some [] := by
  intro F
  induction F with
  | nil => intro h; cases h
  | cons c F ih =>
    intro hlast
    cases hF : F with
    | nil =>
      subst hF
      have hc : c = '\n' := by simpa using hlast
      subst hc
      rfl
    | cons d F' =>
      subst hF
      rw [List.getLast?_cons_cons] at hlast
      have h2 := ih hlast
      by_cases hc : c = '\n'
      · subst hc
        rw [splitNl_cons_nl]
        cases hs : splitNl (d :: F') with
        | nil => exact absurd hs (splitNl_ne_nil _)
        | cons x xs =>
          rw [hs] at h2
          rw [List.getLast?_cons_cons]
          exact h2
      · rw [splitNl_cons_other c _ hc]
        cases hs : splitNl (d :: F') with
        | nil => exact absurd hs (splitNl_ne_nil _)
        | cons x xs =>
          rw [hs] at h2
          have hmem : '\n' ∈ d :: F' := List.mem_of_getLast?_eq_some hlast
          have hlen := splitNl_length2 _ hmem
          rw [hs] at hlen
          cases xs with
          | nil => simp at hlen
          | cons y ys =>
            rw [List.modifyHead_cons]
            rw [List.getLast?_cons_cons]
            rw [List.getLast?_cons_cons] at h2
            exact h2

/-- `rustLinesRaw` of a newline-terminated file drops the final empty
segment. -/
theorem rustLinesRaw_terminated (F : List Char) (h : F.getLast? = some '\n') :
    rustLinesRaw F = (splitNl F).dropLast := by
  unfold rustLinesRaw
  rw [if_pos (splitNl_getLast_terminated F h)]

/-- Appending one record line to an empty or newline-terminated file appends
exactly one line to `rustLines`. -/
theorem rustLines_append_record (F : List Char) (a : Annotation)
    (hF : F = [] ∨ F.getLast? = some '\n') :
    rustLines (F ++ (encodeAnn a ++ ['\n'])) = rustLines F ++ [encodeAnn a] := by
  have h1 : splitNl (encodeAnn a ++ ['\n']) = [encodeAnn a, []] := by
    rw [show encodeAnn a ++ ['\n'] = encodeAnn a ++ '\n' :: ([] : List Char) from rfl]
    rw [splitNl_append_nl _ _ (nl_not_mem_encodeAnn a)]
    rfl
  rcases hF with rfl | hF
  · rw [List.nil_append]
    have h0 : rustLines ([] : List Char) = [] := by
      unfold rustLines rustLinesRaw
      rfl
    rw [h0, List.nil_append]
    unfold rustLines rustLinesRaw
    rw [h1]
    rw [show ([encodeAnn a, []] : List (List Char)) =
      [encodeAnn a] ++ [([] : List Char)] from rfl]
    rw [List.getLast?_concat, if_pos rfl, List.dropLast_concat]
    simp [stripCr_encodeAnn]
  · unfold rustLines
    rw [rustLinesRaw_terminated F hF]
    have h3 : rustLinesRaw (F ++ (encodeAnn a ++ ['\n'])) =
        (splitNl F).dropLast ++ [encodeAnn a] := by
      unfold rustLinesRaw
      rw [splitNl_append_terminated F _ hF, h1]
      rw [show (splitNl F).dropLast ++ [encodeAnn a, []] =
        ((splitNl F).dropLast ++ [encodeAnn a]) ++ [([] : List Char)] from by
          simp]
      rw [List.getLast?_concat, if_pos rfl, List.dropLast_concat]
    rw [h3, List.map_append]
    simp [stripCr_encodeAnn]

/-! ## Lemmas about the `load_jsonl` line loop. -/

/-- A run of lines that all trim to blank loads as the empty list. -/
theorem loadLines_blank (p : String) :
    ∀ (ls : List (List Char)) (i : Nat), (∀ l ∈ ls, trimChars l = []) →
      loadLines p ls i = Except.ok [] := by
  intro ls
  induction ls with
  | nil => intro i _; rfl
  | cons l rest ih =>
    intro i h
    have hl : trimChars l = [] := h l (List.mem_cons_self ..)
    simp only [loadLines]
    rw [if_pos hl]
    exact ih (i + 1) (fun x hx => h x (List.mem_cons_of_mem _ hx))

/-- A single encoded record loads as that annotation. -/
theorem loadLines_single (p : String) (a : Annotation) (i : Nat) :
    loadLines p [encodeAnn a] i = Except.ok [a] := by
  simp only [loadLines]
  rw [trimChars_encodeAnn, if_neg (encodeAnn_ne_nil a), parseAnn_encodeAnn]

/-- A list of encoded records loads as exactly that list. -/
theorem loadLines_map_encode (p : String) :
    ∀ (L : List Annotation) (i : Nat),
      loadLines p (L.map encodeAnn) i = Except.ok L := by
  intro L
  induction L with
  | nil => intro i; rfl
  | cons a L ih =>
    intro i
    rw [List.map_cons]
    simp only [loadLines]
    rw [trimChars_encodeAnn, if_neg (encodeAnn_ne_nil a), parseAnn_encodeAnn, ih (i + 1)]

/-- The line loop distributes over a prefix that loads successfully. -/
theorem loadLines_append (p : String) :
    ∀ (ls1 ls2 : List (List Char)) (i : Nat) (xs : List Annotation),
      loadLines p ls1 i = Except.ok xs →
      loadLines p (ls1 ++ ls2) i =
        Except.map (fun ys => xs ++ ys) (loadLines p ls2 (i + ls1.length)) := by
  intro ls1
  induction ls1 with
  | nil =>
    intro ls2 i xs h
    rw [show loadLines p [] i = Except.ok [] from rfl] at h
    injection h with h2
    subst h2
    simp only [List.nil_append, List.length_nil, Nat.add_zero]
    cases loadLines p ls2 i <;> simp [Except.map]
  | cons l ls1 ih =>
    intro ls2 i xs h
    by_cases hb : trimChars l = []
    · simp only [loadLines, if_pos hb, List.append_eq] at h ⊢
      rw [ih ls2 (i + 1) xs h]
      have harith : i + 1 + ls1.length = i + (ls1.length + 1) := by omega
      rw [List.length_cons, harith]
    · cases hp : parseAnn (trimChars l) with
      | none =>
        simp only [loadLines, if_neg hb, hp] at h
        exact absurd h (by simp)
      | some a =>
        cases hr : loadLines p ls1 (i + 1) with
        | error e =>
          simp only [loadLines, if_neg hb, hp, hr] at h
          exact absurd h (by simp)
        | ok its =>
          simp only [loadLines, if_neg hb, hp, hr] at h
          injection h with h2
          subst h2
          rw [List.cons_append]
          simp only [loadLines, if_neg hb, hp, List.append_eq]
          rw [ih ls2 (i + 1) its hr]
          have harith : i + 1 + ls1.length = i + (ls1.length + 1) := by omega
          rw [List.length_cons, harith]
          cases loadLines p ls2 (i + (ls1.length + 1)) <;> simp [Except.map]

/-- The first non-blank, non-parsing line aborts the load with its 1-based
line number. -/
theorem loadLines_first_bad (p : String) :
    ∀ (ls : List (List Char)) (i j : Nat), j < ls.length →
      (∀ k, k < j → trimChars (ls.getD k []) = [] ∨
        (parseAnn (trimChars (ls.getD k []))).isSome = true) →
      trimChars (ls.getD j []) ≠ [] →
      parseAnn (trimChars (ls.getD j [])) = none →
      loadLines p ls i = Except.error ⟨p, i + j + 1⟩ := by
  intro ls
  induction ls with
  | nil => intro i j hj _ _ _; exact absurd hj (by simp)
  | cons l rest ih =>
    intro i j hj hpre hne hnone
    cases j with
    | zero =>
      simp only [List.getD_cons_zero] at hne hnone
      simp only [loadLines]
      rw [if_neg hne, hnone]
    | succ j' =>
      have hj' : j' < rest.length := by
        simp only [List.length_cons] at hj
        omega
      simp only [List.getD_cons_succ] at hne hnone
      have hpre' : ∀ k, k < j' → trimChars (rest.getD k []) = [] ∨
          (parseAnn (trimChars (rest.getD k []))).isSome = true := by
        intro k hk
        have h := hpre (k + 1) (by omega)
        simpa only [List.getD_cons_succ] using h
      have hrec := ih (i + 1) j' hj' hpre' hne hnone
      by_cases hb : trimChars l = []
      · simp only [loadLines]
        rw [if_pos hb, hrec]
        have harith : i + 1 + j' + 1 = i + (j' + 1) + 1 := by omega
        rw [harith]
      · have h0 := hpre 0 (Nat.succ_pos j')
        simp only [List.getD_cons_zero] at h0
        rcases h0 with h0 | h0
        · exact absurd h0 hb
        · obtain ⟨a, ha⟩ := Option.isSome_iff_exists.mp h0
          simp only [loadLines]
          rw [if_neg hb, ha, hrec]
          have harith : i + 1 + j' + 1 = i + (j' + 1) + 1 := by omega
          rw [harith]

/-- C7: the store round-trips. Loading after `save_annotations L` returns
`L` in order, unconditionally; and for a file state that is empty or
newline-terminated (every state the store itself produces) and loads
successfully as `xs`, loading after ` append_annotation` returns
`xs ++ [a]`. -/
theorem C7_store_round_trip (L : List Annotation) (F : List Char)
    (a : Annotation) (xs : List Annotation)
    (hF : F = [] ∨ F.getLast? = some '\n')
    (hload : load_annotations (some F) = Except.ok xs) :
    load_annotations (some (save_annotations L)) = Except.ok L ∧
    load_annotations (some ( append_annotation (some F) a)) =
      Except.ok (xs ++ [a]) := by
  constructor
  · show loadLines annotationsFile (rustLines (save_annotations L)) 0 = Except.ok L
    rw [rustLines_save]
    exact loadLines_map_encode annotationsFile L 0
  · show loadLines annotationsFile
      (rustLines ( append_annotation (some F) a)) 0 = Except.ok (xs ++ [a])
    have hA : ( append_annotation (some F) a) = F ++ (encodeAnn a ++ ['\n']) := by
      unfold append_annotation
      simp [List.append_assoc]
    have hload' : loadLines annotationsFile (rustLines F) 0 = Except.ok xs := hload
    rw [hA, rustLines_append_record F a hF,
      loadLines_append annotationsFile (rustLines F) [encodeAnn a] 0 xs hload',
      loadLines_single annotationsFile a (0 + (rustLines F).length)]
    rfl

set_option allowUnsafeReducibility true in
attribute [semireducible] litA litB litC litD litE litF litG litH

/-- The claim's append clause fails as stated on a file state that is not
newline-terminated: the appended record merges into the unterminated last
line, and the merged line no longer parses. -/
theorem C7_cex :
    load_annotations (some (encodeAnn ⟨1, "f", 1, 1, "t", 0, 0⟩)) =
      Except.ok [⟨1, "f", 1, 1, "t", 0, 0⟩] ∧
    load_annotations (some ( append_annotation
        (some (encodeAnn ⟨1, "f", 1, 1, "t", 0, 0⟩)) ⟨2, "g", 2, 2, "u", 0, 0⟩)) =
      Except.error ⟨annotationsFile, 1⟩ :=
  ⟨rfl, rfl⟩

/-- Witness: the round trip at a concrete one-record store. -/
theorem C7_store_round_trip_witness :
    load_annotations (some (save_annotations [(⟨1, "f", 1, 1, "t", 0, 0⟩ : Annotation)])) =
      Except.ok [⟨1, "f", 1, 1, "t", 0, 0⟩] ∧
    load_annotations (some ( append_annotation
        (some (save_annotations [(⟨1, "f", 1, 1, "t", 0, 0⟩ : Annotation)]))
        ⟨2, "g", 2, 2, "u", 0, 0⟩)) =
      Except.ok ([⟨1, "f", 1, 1, "t", 0, 0⟩] ++ [⟨2, "g", 2, 2, "u", 0, 0⟩]) :=
  C7_store_round_trip [⟨1, "f", 1, 1, "t", 0, 0⟩]
    (save_annotations [⟨1, "f", 1, 1, "t", 0, 0⟩]) ⟨2, "g", 2, 2, "u", 0, 0⟩
    [⟨1, "f", 1, 1, "t", 0, 0⟩] (Or.inr rfl) rfl

/-- C8: a missing annotations file loads as the empty list; a file of blank
lines loads as the empty list; and when line `j` (0-based) is the first
non-blank line that fails to parse, the whole load fails with the file name
and the 1-based line number `j + 1` — no partial list is returned. -/
theorem C8_load_error_handling (F G : List Char) (j : Nat)
    (hj : j < (rustLines F).length)
    (hblank : ∀ l ∈ rustLines G, trimChars l = [])
    (hne : trimChars ((rustLines F).getD j []) ≠ [])
    (hbad : parseAnn (trimChars ((rustLines F).getD j [])) = none)
    (hpre : ∀ k, k < j → trimChars ((rustLines F).getD k []) = [] ∨
        (parseAnn (trimChars ((rustLines F).getD k []))).isSome = true) :
    load_annotations none = Except.ok [] ∧
    load_annotations (some G) = Except.ok [] ∧
    load_annotations (some F) = Except.error ⟨annotationsFile, j + 1⟩ := by
  refine ⟨rfl, ?_, ?_⟩
  · show loadLines annotationsFile (rustLines G) 0 = Except.ok []
    exact loadLines_blank annotationsFile (rustLines G) 0 hblank
  · show loadLines annotationsFile (rustLines F) 0 =
      Except.error ⟨annotationsFile, j + 1⟩
    have h := loadLines_first_bad annotationsFile (rustLines F) 0 j hj hpre hne hbad
    simpa using h

/-- Witness: a blank-lines file loads empty, and a file whose second line is
junk fails naming line 2. -/
theorem C8_load_error_handling_witness :
    load_annotations none = Except.ok [] ∧
    load_annotations (some ((" \n \n").toList)) = Except.ok [] ∧
    load_annotations (some (("\njunk\n").toList)) =
      Except.error ⟨annotationsFile, 2⟩ :=
  C8_load_error_handling ("\njunk\n").toList (" \n \n").toList 1
    (by decide) (by decide) (by decide) (by decide)
    (fun k hk => by
      rw [Nat.lt_one_iff] at hk
      subst hk
      exact Or.inl rfl)
